import Mathlib

/-!
Shallow embedding of the hybrid retrieval and reranking engine of the
`tanalyst` repository (`articles/utils.py` and `articles/reranker.py`).
Python floats are idealised as rationals (`ℚ`), or reals (`ℝ`) where a
square root is required; Python dicts flowing through the search pipeline
are embedded as structures holding exactly the fields the engine reads or
writes, plus an opaque payload standing for every other key.
-/

namespace Tanalyst

/-- A raw `score` value found in a candidate record: a numeric value, a
value on which `float()` raises (`bad`), or an absent key (`get` then
yields the default `0`). -/
inductive RawVal where
  | num (q : ℚ)
  | bad
  | absent
  deriving DecidableEq, Repr

/-- A normalized search-result record as consumed by the fusion engine
`normalize_hybrid_scores`: the embedding keeps the fields the fusion
engine reads (the `_id` and `id` keys and the numeric `score` key) and an
opaque `payload` standing for every other field of the Python dict.  An
absent key is `none`. -/
structure SRec where
  oid : Option String
  gid : Option String
  score : ℚ
  payload : ℕ
  deriving DecidableEq, Repr

/-- Python truthiness of an optional string field: an absent key (`None`)
and the empty string are falsy. -/
def truthy : Option String → Bool
  | none => false
  | some s => decide (s ≠ "")

/-- The effective document id `result.get('_id') or result.get('id')` of
`normalize_hybrid_scores`; `none` exactly when that Python expression is
falsy, in which case the record is skipped (`if not doc_id: continue`). -/
def docId (r : SRec) : Option String :=
  if truthy r.oid then r.oid else if truthy r.gid then r.gid else none

/-- Stable descending insertion: place `x` before the first element whose
key is not larger than its own.  An element coming later in the input list
never overtakes an equal-key element that came earlier, which is exactly
the guarantee of Python's stable `sorted(..., reverse=True)` and
`list.sort(..., reverse=True)`. -/
def insertDesc (key : α → ℚ) (x : α) : List α → List α
  | [] => [x]
  | y :: ys => if key y ≤ key x then x :: y :: ys else y :: insertDesc key x ys

/-- Stable descending sort by `key`; extensionally equal to Python's
stable descending sort. -/
def sortDesc (key : α → ℚ) : List α → List α
  | [] => []
  | x :: xs => insertDesc key x (sortDesc key xs)

theorem insertDesc_perm (key : α → ℚ) (x : α) (l : List α) :
    (insertDesc key x l).Perm (x :: l) := by
  induction l with
  | nil => exact List.Perm.refl _
  | cons y ys ih =>
    by_cases h : key y ≤ key x
    · simp [insertDesc, h]
    · simp only [insertDesc, if_neg h]
      exact (ih.cons y).trans (List.Perm.swap x y ys)

theorem sortDesc_perm (key : α → ℚ) (l : List α) : (sortDesc key l).Perm l := by
  induction l with
  | nil => exact List.Perm.refl _
  | cons x xs ih => exact (insertDesc_perm key x (sortDesc key xs)).trans (ih.cons x)

theorem insertDesc_pairwise (key : α → ℚ) (P : α → α → Prop) (x : α) (l : List α)
    (hl : l.Pairwise fun a b => key b < key a ∨ (key a = key b ∧ P a b))
    (hx : ∀ y ∈ l, P x y) :
    (insertDesc key x l).Pairwise fun a b => key b < key a ∨ (key a = key b ∧ P a b) := by
  induction l with
  | nil => simp [insertDesc]
  | cons y ys ih =>
    rcases List.pairwise_cons.mp hl with ⟨hy, hys⟩
    by_cases h : key y ≤ key x
    · simp only [insertDesc, if_pos h]
      refine List.pairwise_cons.mpr ⟨?_, hl⟩
      intro z hz
      have hzx : key z ≤ key x := by
        rcases List.mem_cons.mp hz with rfl | hz'
        · exact h
        · rcases hy z hz' with h1 | ⟨h1, _⟩
          · exact le_trans h1.le h
          · exact h1 ▸ h
      rcases lt_or_eq_of_le hzx with hlt | heq
      · exact Or.inl hlt
      · exact Or.inr ⟨heq.symm, hx z hz⟩
    · simp only [insertDesc, if_neg h]
      refine List.pairwise_cons.mpr ⟨?_, ih hys fun z hz => hx z (List.mem_cons_of_mem y hz)⟩
      intro z hz
      have hz' := (insertDesc_perm key x ys).mem_iff.mp hz
      rcases List.mem_cons.mp hz' with rfl | hz2
      · exact Or.inl (not_le.mp h)
      · exact hy z hz2

theorem sortDesc_pairwise (key : α → ℚ) (P : α → α → Prop) (l : List α)
    (hl : l.Pairwise P) :
    (sortDesc key l).Pairwise fun a b => key b < key a ∨ (key a = key b ∧ P a b) := by
  induction l with
  | nil => simp [sortDesc]
  | cons x xs ih =>
    rcases List.pairwise_cons.mp hl with ⟨hx, hxs⟩
    exact insertDesc_pairwise key P x (sortDesc key xs) (ih hxs)
      fun y hy => hx y ((sortDesc_perm key xs).mem_iff.mp hy)

theorem pairwise_true (l : List α) : l.Pairwise fun _ _ => True := by
  induction l with
  | nil => exact List.Pairwise.nil
  | cons x xs ih => exact List.Pairwise.cons (fun _ _ => trivial) ih

theorem sortDesc_sorted (key : α → ℚ) (l : List α) :
    (sortDesc key l).Pairwise fun a b => key b ≤ key a := by
  have h := sortDesc_pairwise key (fun _ _ => True) l (pairwise_true l)
  exact h.imp fun hab => hab.elim le_of_lt fun hab2 => le_of_eq hab2.1.symm

theorem sortDesc_eq_self (key : α → ℚ) (l : List α)
    (h : l.Pairwise fun a b => key b ≤ key a) : sortDesc key l = l := by
  induction l with
  | nil => rfl
  | cons x xs ih =>
    rcases List.pairwise_cons.mp h with ⟨hx, hxs⟩
    rw [sortDesc, ih hxs]
    cases xs with
    | nil => rfl
    | cons y ys => simp [insertDesc, hx y (List.mem_cons_self y ys)]

/-- Assign consecutive values through a setter, modelling Python's
`for i, item in enumerate(lst, n): item[field] = i`. -/
def assignRanksBy (set : α → ℕ → α) : ℕ → List α → List α
  | _, [] => []
  | n, x :: xs => set x n :: assignRanksBy set (n + 1) xs

theorem assignRanksBy_length (set : α → ℕ → α) (n : ℕ) (l : List α) :
    (assignRanksBy set n l).length = l.length := by
  induction l generalizing n with
  | nil => rfl
  | cons x xs ih => simp [assignRanksBy, ih]

theorem assignRanksBy_map_eq (set : α → ℕ → α) (f : α → β)
    (hf : ∀ x n, f (set x n) = f x) (n : ℕ) (l : List α) :
    (assignRanksBy set n l).map f = l.map f := by
  induction l generalizing n with
  | nil => rfl
  | cons x xs ih => simp [assignRanksBy, hf, ih]

theorem assignRanksBy_map_rank (set : α → ℕ → α) (g : α → ℕ)
    (hg : ∀ x n, g (set x n) = n) (n : ℕ) (l : List α) :
    (assignRanksBy set n l).map g = List.range' n l.length := by
  induction l generalizing n with
  | nil => rfl
  | cons x xs ih => simp [assignRanksBy, hg, ih, List.range'_succ]

theorem mem_assignRanksBy (set : α → ℕ → α) (n : ℕ) (l : List α) (x : α)
    (hx : x ∈ assignRanksBy set n l) : ∃ y ∈ l, ∃ m, x = set y m := by
  induction l generalizing n with
  | nil => simp [assignRanksBy] at hx
  | cons z zs ih =>
    rcases List.mem_cons.mp hx with rfl | hx'
    · exact ⟨z, List.mem_cons_self z zs, n, rfl⟩
    · rcases ih (n + 1) hx' with ⟨y, hy, m, rfl⟩
      exact ⟨y, List.mem_cons_of_mem z hy, m, rfl⟩

theorem assignRanksBy_pairwise (set : α → ℕ → α) (R S : α → α → Prop)
    (hRS : ∀ a b n m, R a b → S (set a n) (set b m)) (n : ℕ) (l : List α)
    (h : l.Pairwise R) : (assignRanksBy set n l).Pairwise S := by
  induction l generalizing n with
  | nil => exact List.Pairwise.nil
  | cons x xs ih =>
    rcases List.pairwise_cons.mp h with ⟨hx, hxs⟩
    refine List.Pairwise.cons ?_ (ih (n + 1) hxs)
    intro z hz
    rcases mem_assignRanksBy set (n + 1) xs z hz with ⟨y, hy, m, rfl⟩
    exact hRS x y n m (hx y hy)

/-- The `search_type` key written by the fusion engine
(`'vector'`, `'text'` or `'hybrid'`). -/
inductive SearchType where
  | vector
  | text
  | hybrid
  deriving DecidableEq, Repr

/-- An entry of `result_map` in `normalize_hybrid_scores`: the spread
`{**result}` fields are kept in `rec`, the keys the function writes are
explicit fields.  `hybrid_score` and the final `rank` are written in the
later phases; before that the keys are absent, modelled by `0`.  The
`score` key spread from the input record is `scoreKey`; the RRF phase
overwrites it with the hybrid score. -/
structure HEntry where
  srec : SRec
  scoreKey : ℚ
  vector_rank : Option ℕ
  vector_score : ℚ
  text_rank : Option ℕ
  text_score : ℚ
  search_type : SearchType
  hybrid_score : ℚ
  rank : ℕ
  deriving DecidableEq, Repr

/-- Python dict assignment `m[k] = e` on an insertion-ordered dict:
overwrite in place when the key is present, append otherwise. -/
def rmapInsert (k : String) (e : HEntry) : List (String × HEntry) → List (String × HEntry)
  | [] => [(k, e)]
  | (k', e') :: rest => if k' = k then (k, e) :: rest else (k', e') :: rmapInsert k e rest

/-- Lookup in the insertion-ordered dict (`result_map.get(doc_id)`,
`doc_id in result_map`). -/
def rmapLookup (k : String) : List (String × HEntry) → Option HEntry
  | [] => none
  | (k', e') :: rest => if k' = k then some e' else rmapLookup k rest

/-- In-place update of the entry at key `k` (position preserved), the
merge branch `result_map[doc_id][...] = ...` of the text phase. -/
def rmapUpdate (k : String) (f : HEntry → HEntry) :
    List (String × HEntry) → List (String × HEntry)
  | [] => []
  | (k', e') :: rest => if k' = k then (k', f e') :: rest else (k', e') :: rmapUpdate k f rest

/-- The entry built for a vector-search result at 1-based `rank`:
`{**result, 'vector_rank': rank, 'vector_score': result.get('score', 0),
'text_rank': None, 'text_score': 0, 'search_type': 'vector'}`. -/
def mkVecEntry (r : SRec) (rank : ℕ) : HEntry :=
  { srec := r, scoreKey := r.score, vector_rank := some rank, vector_score := r.score,
    text_rank := none, text_score := 0, search_type := .vector,
    hybrid_score := 0, rank := 0 }

/-- The entry built for a text-only search result at 1-based `rank`. -/
def mkTextEntry (r : SRec) (rank : ℕ) : HEntry :=
  { srec := r, scoreKey := r.score, vector_rank := none, vector_score := 0,
    text_rank := some rank, text_score := r.score, search_type := .text,
    hybrid_score := 0, rank := 0 }

/-- The update applied when a text result's id is already in the map:
`result_map[doc_id]['text_rank'] = rank`,
`result_map[doc_id]['text_score'] = result.get('score', 0)`,
`result_map[doc_id]['search_type'] = 'hybrid'`. -/
def mergeText (r : SRec) (rank : ℕ) (e : HEntry) : HEntry :=
  { e with text_rank := some rank, text_score := r.score, search_type := .hybrid }

/-- Phase 1 of `normalize_hybrid_scores`:
`for rank, result in enumerate(vector_results, 1)`. -/
def procVec : List (String × HEntry) → ℕ → List SRec → List (String × HEntry)
  | m, _, [] => m
  | m, n, r :: rs =>
    match docId r with
    | none => procVec m (n + 1) rs
    | some k => procVec (rmapInsert k (mkVecEntry r n) m) (n + 1) rs

/-- Phase 2 of `normalize_hybrid_scores`:
`for rank, result in enumerate(text_results, 1)` with the merge branch
for ids already found by the vector search. -/
def procText : List (String × HEntry) → ℕ → List SRec → List (String × HEntry)
  | m, _, [] => m
  | m, n, r :: rs =>
    match docId r with
    | none => procText m (n + 1) rs
    | some k =>
      match rmapLookup k m with
      | some _ => procText (rmapUpdate k (mergeText r n) m) (n + 1) rs
      | none => procText (rmapInsert k (mkTextEntry r n) m) (n + 1) rs

/-- The RRF smoothing constant `k = 60` of `normalize_hybrid_scores`. -/
def rrfK : ℕ := 60

/-- Phase 3 of `normalize_hybrid_scores`: `rrf_score += weight / (k + rank)`
for each present rank, then `doc['hybrid_score'] = rrf_score * 100` and
`doc['score'] = doc['hybrid_score']`.  A present rank is always at least 1,
so the Python truthiness test `if doc['vector_rank']:` coincides with
presence. -/
def applyRRF (vw tw : ℚ) (e : HEntry) : HEntry :=
  let s : ℚ :=
    (match e.vector_rank with | some r => vw / ((rrfK : ℚ) + r) | none => 0) +
    (match e.text_rank with | some r => tw / ((rrfK : ℚ) + r) | none => 0)
  { e with hybrid_score := s * 100, scoreKey := s * 100 }

/-- The final-phase rank setter of the fusion engine
(`result['rank'] = rank`). -/
def setRank (e : HEntry) (n : ℕ) : HEntry := { e with rank := n }

/-- `normalize_hybrid_scores` (`articles/utils.py`): Reciprocal Rank
Fusion of a vector result list and a text result list, sorted by
descending hybrid score with final 1-based ranks.  Source defaults:
`vector_weight = 0.5`, `text_weight = 0.5`. -/
def normalize_hybrid_scores (vector_results text_results : List SRec)
    (vector_weight text_weight : ℚ) : List HEntry :=
  let m := procText (procVec [] 1 vector_results) 1 text_results
  let vals := (m.map Prod.snd).map (applyRRF vector_weight text_weight)
  let combined := sortDesc (fun e => e.hybrid_score) vals
  assignRanksBy setRank 1 combined

/-- The truthy document ids of a result list, in list order. -/
def idsOf (l : List SRec) : List String := l.filterMap docId

theorem idsOf_cons_none (r : SRec) (rs : List SRec) (h : docId r = none) :
    idsOf (r :: rs) = idsOf rs := by simp [idsOf, List.filterMap_cons, h]

theorem idsOf_cons_some (r : SRec) (rs : List SRec) (k : String) (h : docId r = some k) :
    idsOf (r :: rs) = k :: idsOf rs := by simp [idsOf, List.filterMap_cons, h]

theorem mem_idsOf (l : List SRec) (k : String) :
    k ∈ idsOf l ↔ ∃ r ∈ l, docId r = some k := by
  simp [idsOf, List.mem_filterMap]

/-- First record carrying document id `k` in a result list, together with
its 1-based rank; ranks count every list element, exactly as `enumerate`
does, and `n` is the rank of the list's head. -/
def findRank (n : ℕ) (k : String) : List SRec → Option (SRec × ℕ)
  | [] => none
  | r :: rs => if docId r = some k then some (r, n) else findRank (n + 1) k rs

theorem findRank_eq_none (n : ℕ) (k : String) (l : List SRec)
    (h : ∀ r ∈ l, docId r ≠ some k) : findRank n k l = none := by
  induction l generalizing n with
  | nil => rfl
  | cons r rs ih =>
    simp only [findRank, if_neg (h r (List.mem_cons_self r rs))]
    exact ih (n + 1) fun r' hr' => h r' (List.mem_cons_of_mem r hr')

theorem rmapLookup_rmapInsert_self (k : String) (e : HEntry) (m : List (String × HEntry)) :
    rmapLookup k (rmapInsert k e m) = some e := by
  induction m with
  | nil => simp [rmapInsert, rmapLookup]
  | cons p rest ih =>
    obtain ⟨k', e'⟩ := p
    by_cases h : k' = k
    · simp [rmapInsert, rmapLookup, h]
    · simp [rmapInsert, rmapLookup, h, ih]

theorem rmapLookup_rmapInsert_ne (k k' : String) (hne : k' ≠ k) (e : HEntry)
    (m : List (String × HEntry)) :
    rmapLookup k' (rmapInsert k e m) = rmapLookup k' m := by
  have hne' : ¬k = k' := fun h => hne h.symm
  induction m with
  | nil => simp [rmapInsert, rmapLookup, hne']
  | cons p rest ih =>
    obtain ⟨k'', e''⟩ := p
    by_cases h : k'' = k
    · subst h
      simp [rmapInsert, rmapLookup, hne']
    · simp only [rmapInsert, if_neg h]
      by_cases h2 : k'' = k'
      · simp [rmapLookup, h2]
      · simp [rmapLookup, h2, ih]

theorem rmapLookup_rmapUpdate_self (k : String) (f : HEntry → HEntry)
    (m : List (String × HEntry)) :
    rmapLookup k (rmapUpdate k f m) = (rmapLookup k m).map f := by
  induction m with
  | nil => simp [rmapUpdate, rmapLookup]
  | cons p rest ih =>
    obtain ⟨k', e'⟩ := p
    by_cases h : k' = k
    · simp [rmapUpdate, rmapLookup, h]
    · simp [rmapUpdate, rmapLookup, h, ih]

theorem rmapLookup_rmapUpdate_ne (k k' : String) (hne : k' ≠ k) (f : HEntry → HEntry)
    (m : List (String × HEntry)) :
    rmapLookup k' (rmapUpdate k f m) = rmapLookup k' m := by
  have hne' : ¬k = k' := fun h => hne h.symm
  induction m with
  | nil => simp [rmapUpdate, rmapLookup]
  | cons p rest ih =>
    obtain ⟨k'', e''⟩ := p
    by_cases h : k'' = k
    · subst h
      simp [rmapUpdate, rmapLookup, hne']
    · simp only [rmapUpdate, if_neg h]
      by_cases h2 : k'' = k'
      · simp [rmapLookup, h2]
      · simp [rmapLookup, h2, ih]

theorem procVec_lookup (v : List SRec) (hnd : (idsOf v).Nodup)
    (m : List (String × HEntry)) (n : ℕ) (k : String) :
    rmapLookup k (procVec m n v) =
      match findRank n k v with
      | some (r, j) => some (mkVecEntry r j)
      | none => rmapLookup k m := by
  induction v generalizing m n with
  | nil => rfl
  | cons r rs ih =>
    cases hid : docId r with
    | none =>
      have hnd' : (idsOf rs).Nodup := by rwa [idsOf_cons_none r rs hid] at hnd
      have hne : ¬docId r = some k := by simp [hid]
      simp only [procVec, hid, findRank, if_neg hne]
      exact ih hnd' m (n + 1)
    | some k' =>
      have hcons := idsOf_cons_some r rs k' hid
      have hnd2 : (k' :: idsOf rs).Nodup := hcons ▸ hnd
      have hnd' : (idsOf rs).Nodup := hnd2.of_cons
      by_cases hk : k' = k
      · subst hk
        have hnotin : k' ∉ idsOf rs := (List.nodup_cons.mp hnd2).1
        have hnone : findRank (n + 1) k' rs = none := by
          apply findRank_eq_none
          intro r' hr' hcontra
          exact hnotin ((mem_idsOf rs k').mpr ⟨r', hr', hcontra⟩)
        simp only [procVec, hid]
        rw [ih hnd' _ (n + 1), hnone, rmapLookup_rmapInsert_self]
        simp [findRank, hid]
      · have hne : ¬docId r = some k := by simp [hid, hk]
        have hfr : findRank n k (r :: rs) = findRank (n + 1) k rs := by
          simp [findRank, hne]
        simp only [procVec, hid]
        rw [ih hnd' _ (n + 1), hfr]
        cases findRank (n + 1) k rs with
        | none =>
          exact rmapLookup_rmapInsert_ne k' k (fun h => hk h.symm) _ m
        | some p => rfl

theorem procText_lookup (t : List SRec) (hnd : (idsOf t).Nodup)
    (m : List (String × HEntry)) (n : ℕ) (k : String) :
    rmapLookup k (procText m n t) =
      match findRank n k t with
      | some (r, j) =>
        (match rmapLookup k m with
         | some e => some (mergeText r j e)
         | none => some (mkTextEntry r j))
      | none => rmapLookup k m := by
  induction t generalizing m n with
  | nil => rfl
  | cons r rs ih =>
    cases hid : docId r with
    | none =>
      have hnd' : (idsOf rs).Nodup := by rwa [idsOf_cons_none r rs hid] at hnd
      have hne : ¬docId r = some k := by simp [hid]
      simp only [procText, hid, findRank, if_neg hne]
      exact ih hnd' m (n + 1)
    | some k' =>
      have hcons := idsOf_cons_some r rs k' hid
      have hnd2 : (k' :: idsOf rs).Nodup := hcons ▸ hnd
      have hnd' : (idsOf rs).Nodup := hnd2.of_cons
      by_cases hk : k' = k
      · subst hk
        have hnotin : k' ∉ idsOf rs := (List.nodup_cons.mp hnd2).1
        have hnone : findRank (n + 1) k' rs = none := by
          apply findRank_eq_none
          intro r' hr' hcontra
          exact hnotin ((mem_idsOf rs k').mpr ⟨r', hr', hcontra⟩)
        simp only [procText, hid]
        cases hlk : rmapLookup k' m with
        | some e =>
          rw [ih hnd' _ (n + 1), hnone, rmapLookup_rmapUpdate_self, hlk]
          simp [findRank, hid]
        | none =>
          rw [ih hnd' _ (n + 1), hnone, rmapLookup_rmapInsert_self]
          simp [findRank, hid]
      · have hne : ¬docId r = some k := by simp [hid, hk]
        have hfr : findRank n k (r :: rs) = findRank (n + 1) k rs := by
          simp [findRank, hne]
        simp only [procText, hid]
        cases hlk : rmapLookup k' m with
        | some e =>
          rw [ih hnd' _ (n + 1), rmapLookup_rmapUpdate_ne k' k (fun h => hk h.symm), hfr]
        | none =>
          rw [ih hnd' _ (n + 1), rmapLookup_rmapInsert_ne k' k (fun h => hk h.symm), hfr]

/-- No two entries of the insertion-ordered dict share a key; Python
dicts have this by construction. -/
def keysNodup (m : List (String × HEntry)) : Prop := (m.map Prod.fst).Nodup

theorem mem_keys_rmapInsert (x k : String) (e : HEntry) (m : List (String × HEntry)) :
    x ∈ (rmapInsert k e m).map Prod.fst ↔ x = k ∨ x ∈ m.map Prod.fst := by
  induction m with
  | nil => simp [rmapInsert]
  | cons p rest ih =>
    obtain ⟨k', e'⟩ := p
    by_cases h : k' = k
    · subst h
      simp [rmapInsert]
    · simp [rmapInsert, h, ih]
      tauto

theorem keysNodup_rmapInsert (k : String) (e : HEntry) (m : List (String × HEntry))
    (h : keysNodup m) : keysNodup (rmapInsert k e m) := by
  induction m with
  | nil => simp [keysNodup, rmapInsert]
  | cons p rest ih =>
    obtain ⟨k', e'⟩ := p
    simp only [keysNodup, List.map_cons, List.nodup_cons] at h
    obtain ⟨hk', hrest⟩ := h
    by_cases hkk : k' = k
    · subst hkk
      have hstep : rmapInsert k' e ((k', e') :: rest) = (k', e) :: rest := by
        simp [rmapInsert]
      rw [hstep]
      simp only [keysNodup, List.map_cons, List.nodup_cons]
      exact ⟨hk', hrest⟩
    · simp only [rmapInsert, if_neg hkk, keysNodup, List.map_cons, List.nodup_cons]
      refine ⟨?_, ih hrest⟩
      intro hmem
      rcases (mem_keys_rmapInsert k' k e rest).mp hmem with rfl | hmem'
      · exact hkk rfl
      · exact hk' hmem'

theorem keys_rmapUpdate (k : String) (f : HEntry → HEntry) (m : List (String × HEntry)) :
    (rmapUpdate k f m).map Prod.fst = m.map Prod.fst := by
  induction m with
  | nil => rfl
  | cons p rest ih =>
    obtain ⟨k', e'⟩ := p
    by_cases h : k' = k <;> simp [rmapUpdate, h, ih]

theorem keysNodup_procVec (v : List SRec) (m : List (String × HEntry)) (n : ℕ)
    (h : keysNodup m) : keysNodup (procVec m n v) := by
  induction v generalizing m n with
  | nil => exact h
  | cons r rs ih =>
    cases hid : docId r with
    | none =>
      simp only [procVec, hid]
      exact ih _ _ h
    | some k =>
      simp only [procVec, hid]
      exact ih _ _ (keysNodup_rmapInsert k _ m h)

theorem keysNodup_procText (t : List SRec) (m : List (String × HEntry)) (n : ℕ)
    (h : keysNodup m) : keysNodup (procText m n t) := by
  induction t generalizing m n with
  | nil => exact h
  | cons r rs ih =>
    cases hid : docId r with
    | none =>
      simp only [procText, hid]
      exact ih _ _ h
    | some k =>
      simp only [procText, hid]
      cases hlk : rmapLookup k m with
      | some e =>
        exact ih _ _ (by simpa [keysNodup, keys_rmapUpdate] using h)
      | none =>
        exact ih _ _ (keysNodup_rmapInsert k _ m h)

/-- Every map entry is stored under the effective id of its own record. -/
def idsMatch (m : List (String × HEntry)) : Prop :=
  ∀ p ∈ m, docId p.2.srec = some p.1

theorem idsMatch_rmapInsert (k : String) (e : HEntry) (m : List (String × HEntry))
    (h : idsMatch m) (he : docId e.srec = some k) : idsMatch (rmapInsert k e m) := by
  induction m with
  | nil =>
    intro p hp
    simp only [rmapInsert, List.mem_singleton] at hp
    subst hp
    exact he
  | cons q rest ih =>
    obtain ⟨k', e'⟩ := q
    intro p hp
    by_cases hkk : k' = k
    · subst hkk
      simp only [rmapInsert, if_pos rfl] at hp
      rcases List.mem_cons.mp hp with rfl | hp'
      · exact he
      · exact h p (List.mem_cons_of_mem _ hp')
    · simp only [rmapInsert, if_neg hkk] at hp
      rcases List.mem_cons.mp hp with rfl | hp'
      · exact h _ (List.mem_cons_self _ _)
      · exact ih (fun q hq => h q (List.mem_cons_of_mem _ hq)) p hp'

theorem idsMatch_rmapUpdate (k : String) (f : HEntry → HEntry) (m : List (String × HEntry))
    (h : idsMatch m) (hf : ∀ e, (f e).srec = e.srec) : idsMatch (rmapUpdate k f m) := by
  induction m with
  | nil =>
    intro p hp
    simp [rmapUpdate] at hp
  | cons q rest ih =>
    obtain ⟨k', e'⟩ := q
    intro p hp
    by_cases hkk : k' = k
    · simp only [rmapUpdate, if_pos hkk] at hp
      rcases List.mem_cons.mp hp with rfl | hp'
      · show docId (f e').srec = some k'
        rw [hf]
        exact h (k', e') (List.mem_cons_self _ _)
      · exact h p (List.mem_cons_of_mem _ hp')
    · simp only [rmapUpdate, if_neg hkk] at hp
      rcases List.mem_cons.mp hp with rfl | hp'
      · exact h _ (List.mem_cons_self _ _)
      · exact ih (fun q hq => h q (List.mem_cons_of_mem _ hq)) p hp'

theorem idsMatch_procVec (v : List SRec) (m : List (String × HEntry)) (n : ℕ)
    (h : idsMatch m) : idsMatch (procVec m n v) := by
  induction v generalizing m n with
  | nil => exact h
  | cons r rs ih =>
    cases hid : docId r with
    | none =>
      simp only [procVec, hid]
      exact ih _ _ h
    | some k =>
      simp only [procVec, hid]
      exact ih _ _ (idsMatch_rmapInsert k _ m h hid)

theorem idsMatch_procText (t : List SRec) (m : List (String × HEntry)) (n : ℕ)
    (h : idsMatch m) : idsMatch (procText m n t) := by
  induction t generalizing m n with
  | nil => exact h
  | cons r rs ih =>
    cases hid : docId r with
    | none =>
      simp only [procText, hid]
      exact ih _ _ h
    | some k =>
      simp only [procText, hid]
      cases hlk : rmapLookup k m with
      | some e =>
        exact ih _ _ (idsMatch_rmapUpdate k _ m h fun e => rfl)
      | none =>
        exact ih _ _ (idsMatch_rmapInsert k _ m h hid)

theorem rmapLookup_eq_of_mem (m : List (String × HEntry)) (h : keysNodup m)
    (k : String) (e : HEntry) (hmem : (k, e) ∈ m) : rmapLookup k m = some e := by
  induction m with
  | nil => simp at hmem
  | cons q rest ih =>
    obtain ⟨k', e'⟩ := q
    simp only [keysNodup, List.map_cons, List.nodup_cons] at h
    obtain ⟨hnotin, hrest⟩ := h
    rcases List.mem_cons.mp hmem with heq | hmem'
    · injection heq with h1 h2
      subst h1
      subst h2
      simp [rmapLookup]
    · have hk : k ∈ rest.map Prod.fst := List.mem_map_of_mem Prod.fst hmem'
      have hne : ¬k' = k := fun hh => hnotin (by rw [hh]; exact hk)
      simp only [rmapLookup, if_neg hne]
      exact ih hrest hmem'

theorem exists_key_of_mem_snd (m : List (String × HEntry)) (e : HEntry)
    (h : e ∈ m.map Prod.snd) : ∃ k, (k, e) ∈ m := by
  rcases List.mem_map.mp h with ⟨p, hp, rfl⟩
  exact ⟨p.1, by simpa using hp⟩

/-- C1: for every pair of result lists given to `normalize_hybrid_scores`
(with ids unambiguous within each list) and weights `vw`, `tw`, every
output entry with a truthy id `s` has `hybrid_score` equal to `100` times
the sum of `vw / (60 + rv)` if `s` occurs in the vector list at 1-based
rank `rv` (else 0) and `tw / (60 + rt)` if `s` occurs in the text list at
1-based rank `rt` (else 0); the output is sorted by descending
`hybrid_score`, and 1-based final ranks are assigned in output order. -/
theorem rrf_fusion_formula_and_order (v t : List SRec) (vw tw : ℚ)
    (hv : (idsOf v).Nodup) (ht : (idsOf t).Nodup) :
    (∀ e ∈ normalize_hybrid_scores v t vw tw, ∀ s, docId e.srec = some s →
        e.hybrid_score = 100 *
          ((match findRank 1 s v with
            | some (_, rv) => vw / ((rrfK : ℚ) + rv)
            | none => 0) +
           (match findRank 1 s t with
            | some (_, rt) => tw / ((rrfK : ℚ) + rt)
            | none => 0)))
    ∧ (normalize_hybrid_scores v t vw tw).Pairwise
        (fun a b => b.hybrid_score ≤ a.hybrid_score)
    ∧ (normalize_hybrid_scores v t vw tw).map HEntry.rank =
        List.range' 1 (normalize_hybrid_scores v t vw tw).length := by
  have hkeys : keysNodup (procText (procVec [] 1 v) 1 t) :=
    keysNodup_procText t _ 1 (keysNodup_procVec v [] 1 (by simp [keysNodup]))
  have hids : idsMatch (procText (procVec [] 1 v) 1 t) :=
    idsMatch_procText t _ 1 (idsMatch_procVec v [] 1 fun p hp => absurd hp (List.not_mem_nil p))
  refine ⟨?_, ?_, ?_⟩
  · intro e he s hs
    simp only [normalize_hybrid_scores] at he
    rcases mem_assignRanksBy _ _ _ _ he with ⟨e1, he1, mr, rfl⟩
    have hs1 : docId e1.srec = some s := hs
    show e1.hybrid_score = _
    have he3 := (sortDesc_perm _ _).mem_iff.mp he1
    rcases List.mem_map.mp he3 with ⟨e2, he4, rfl⟩
    rcases exists_key_of_mem_snd _ _ he4 with ⟨k, hk⟩
    have hdock : docId e2.srec = some k := hids (k, e2) hk
    have hsk : k = s := by
      have hss : docId e2.srec = some s := hs1
      rw [hdock] at hss
      exact Option.some.inj hss
    subst hsk
    have hlook : rmapLookup k (procText (procVec [] 1 v) 1 t) = some e2 :=
      rmapLookup_eq_of_mem _ hkeys k e2 hk
    rw [procText_lookup t ht _ 1 k, procVec_lookup v hv [] 1 k] at hlook
    cases hft : findRank 1 k t with
    | some pt =>
      obtain ⟨rt, jt⟩ := pt
      rw [hft] at hlook
      cases hfv : findRank 1 k v with
      | some pv =>
        obtain ⟨rv, jv⟩ := pv
        rw [hfv] at hlook
        have he2 : e2 = mergeText rt jt (mkVecEntry rv jv) := (Option.some.inj hlook).symm
        subst he2
        simp only [applyRRF, mergeText, mkVecEntry]
        ring
      | none =>
        rw [hfv] at hlook
        have he2 : e2 = mkTextEntry rt jt := (Option.some.inj hlook).symm
        subst he2
        simp only [applyRRF, mkTextEntry]
        ring
    | none =>
      rw [hft] at hlook
      cases hfv : findRank 1 k v with
      | some pv =>
        obtain ⟨rv, jv⟩ := pv
        rw [hfv] at hlook
        have he2 : e2 = mkVecEntry rv jv := (Option.some.inj hlook).symm
        subst he2
        simp only [applyRRF, mkVecEntry]
        ring
      | none =>
        rw [hfv] at hlook
        exact absurd hlook (by simp [rmapLookup])
  · simp only [normalize_hybrid_scores]
    exact assignRanksBy_pairwise setRank _ _ (fun a b n m h => h) 1 _ (sortDesc_sorted _ _)
  · simp only [normalize_hybrid_scores]
    rw [assignRanksBy_map_rank setRank HEntry.rank (fun x n => rfl) 1 _, assignRanksBy_length]

/-- Witness for C1 at a concrete input: one vector result and one text
result sharing the id "a", plus a text-only result with id "b". -/
theorem rrf_fusion_formula_and_order_witness :
    (idsOf [⟨some "a", none, 4, 0⟩]).Nodup ∧
    (idsOf [⟨some "a", none, 3, 1⟩, ⟨some "b", none, 2, 2⟩]).Nodup ∧
    ((∀ e ∈ normalize_hybrid_scores [⟨some "a", none, 4, 0⟩]
          [⟨some "a", none, 3, 1⟩, ⟨some "b", none, 2, 2⟩] (6/10) (4/10),
        ∀ s, docId e.srec = some s →
        e.hybrid_score = 100 *
          ((match findRank 1 s [⟨some "a", none, 4, 0⟩] with
            | some (_, rv) => (6 : ℚ)/10 / ((rrfK : ℚ) + rv)
            | none => 0) +
           (match findRank 1 s [⟨some "a", none, 3, 1⟩, ⟨some "b", none, 2, 2⟩] with
            | some (_, rt) => (4 : ℚ)/10 / ((rrfK : ℚ) + rt)
            | none => 0)))
      ∧ (normalize_hybrid_scores [⟨some "a", none, 4, 0⟩]
          [⟨some "a", none, 3, 1⟩, ⟨some "b", none, 2, 2⟩] (6/10) (4/10)).Pairwise
          (fun a b => b.hybrid_score ≤ a.hybrid_score)
      ∧ (normalize_hybrid_scores [⟨some "a", none, 4, 0⟩]
          [⟨some "a", none, 3, 1⟩, ⟨some "b", none, 2, 2⟩] (6/10) (4/10)).map HEntry.rank =
          List.range' 1 (normalize_hybrid_scores [⟨some "a", none, 4, 0⟩]
            [⟨some "a", none, 3, 1⟩, ⟨some "b", none, 2, 2⟩] (6/10) (4/10)).length) :=
  ⟨by decide, by decide,
    rrf_fusion_formula_and_order [⟨some "a", none, 4, 0⟩]
      [⟨some "a", none, 3, 1⟩, ⟨some "b", none, 2, 2⟩] (6/10) (4/10)
      (by decide) (by decide)⟩

theorem rmapLookup_isSome_of_mem (k : String) (m : List (String × HEntry)) (e : HEntry)
    (h : (k, e) ∈ m) : (rmapLookup k m).isSome := by
  induction m with
  | nil => simp at h
  | cons q rest ih =>
    obtain ⟨k', e'⟩ := q
    by_cases hk : k' = k
    · simp [rmapLookup, hk]
    · simp only [rmapLookup, if_neg hk]
      rcases List.mem_cons.mp h with heq | h'
      · injection heq with h1 h2
        exact absurd h1.symm hk
      · exact ih h'

theorem rmapLookup_mem (k : String) (m : List (String × HEntry)) (e : HEntry)
    (h : rmapLookup k m = some e) : (k, e) ∈ m := by
  induction m with
  | nil => simp [rmapLookup] at h
  | cons q rest ih =>
    obtain ⟨k', e'⟩ := q
    by_cases hk : k' = k
    · subst hk
      simp only [rmapLookup, if_pos rfl] at h
      have he : e' = e := Option.some.inj h
      subst he
      exact List.mem_cons_self _ _
    · simp only [rmapLookup, if_neg hk] at h
      exact List.mem_cons_of_mem _ (ih h)

theorem rmapLookup_rmapInsert_isSome (k k' : String) (e : HEntry)
    (m : List (String × HEntry)) :
    (rmapLookup k (rmapInsert k' e m)).isSome ↔ k = k' ∨ (rmapLookup k m).isSome := by
  by_cases h : k = k'
  · subst h
    simp [rmapLookup_rmapInsert_self]
  · simp [rmapLookup_rmapInsert_ne k' k h, h]

theorem rmapLookup_rmapUpdate_isSome (k k' : String) (f : HEntry → HEntry)
    (m : List (String × HEntry)) :
    (rmapLookup k (rmapUpdate k' f m)).isSome ↔ (rmapLookup k m).isSome := by
  by_cases h : k = k'
  · subst h
    simp [rmapLookup_rmapUpdate_self]
  · simp [rmapLookup_rmapUpdate_ne k' k h]

theorem procVec_lookup_isSome (v : List SRec) (m : List (String × HEntry)) (n : ℕ)
    (k : String) :
    (rmapLookup k (procVec m n v)).isSome ↔ (rmapLookup k m).isSome ∨ k ∈ idsOf v := by
  induction v generalizing m n with
  | nil => simp [procVec, idsOf]
  | cons r rs ih =>
    cases hid : docId r with
    | none =>
      simp only [procVec, hid]
      rw [ih, idsOf_cons_none r rs hid]
    | some k' =>
      simp only [procVec, hid]
      rw [ih, idsOf_cons_some r rs k' hid, rmapLookup_rmapInsert_isSome]
      simp only [List.mem_cons]
      tauto

theorem procText_lookup_isSome (t : List SRec) (m : List (String × HEntry)) (n : ℕ)
    (k : String) :
    (rmapLookup k (procText m n t)).isSome ↔ (rmapLookup k m).isSome ∨ k ∈ idsOf t := by
  induction t generalizing m n with
  | nil => simp [procText, idsOf]
  | cons r rs ih =>
    cases hid : docId r with
    | none =>
      simp only [procText, hid]
      rw [ih, idsOf_cons_none r rs hid]
    | some k' =>
      simp only [procText, hid]
      cases hlk : rmapLookup k' m with
      | some e =>
        rw [ih, idsOf_cons_some r rs k' hid, rmapLookup_rmapUpdate_isSome]
        simp only [List.mem_cons]
        constructor
        · rintro (h | h)
          · exact Or.inl h
          · exact Or.inr (Or.inr h)
        · rintro (h | rfl | h)
          · exact Or.inl h
          · exact Or.inl (by simp [hlk])
          · exact Or.inr h
      | none =>
        rw [ih, idsOf_cons_some r rs k' hid, rmapLookup_rmapInsert_isSome]
        simp only [List.mem_cons]
        tauto

/-- C9: `normalize_hybrid_scores` silently omits every input record whose
`_id` and `id` fields are both absent or falsy (every output entry has a
truthy id), and the set of output ids is exactly the union of the truthy
ids of the two input lists. -/
theorem hybrid_fusion_id_set (v t : List SRec) (vw tw : ℚ) :
    (∀ e ∈ normalize_hybrid_scores v t vw tw, (docId e.srec).isSome)
    ∧ ∀ s : String,
        (∃ e ∈ normalize_hybrid_scores v t vw tw, docId e.srec = some s) ↔
          s ∈ idsOf v ∨ s ∈ idsOf t := by
  have hids : idsMatch (procText (procVec [] 1 v) 1 t) :=
    idsMatch_procText t _ 1 (idsMatch_procVec v [] 1 fun p hp => absurd hp (List.not_mem_nil p))
  have hmapeq : (normalize_hybrid_scores v t vw tw).map (fun e => docId e.srec) =
      (sortDesc (fun e => e.hybrid_score)
        (((procText (procVec [] 1 v) 1 t).map Prod.snd).map (applyRRF vw tw))).map
        (fun e => docId e.srec) := by
    simp only [normalize_hybrid_scores]
    exact assignRanksBy_map_eq setRank (fun e => docId e.srec) (fun x n => rfl) 1 _
  have hperm : ((sortDesc (fun e => e.hybrid_score)
      (((procText (procVec [] 1 v) 1 t).map Prod.snd).map (applyRRF vw tw))).map
      (fun e => docId e.srec)).Perm
      ((((procText (procVec [] 1 v) 1 t).map Prod.snd).map (applyRRF vw tw)).map
        (fun e => docId e.srec)) :=
    (sortDesc_perm _ _).map _
  have hinner : ((((procText (procVec [] 1 v) 1 t).map Prod.snd).map (applyRRF vw tw)).map
      (fun e => docId e.srec)) =
      ((procText (procVec [] 1 v) 1 t).map Prod.snd).map (fun e => docId e.srec) := by
    rw [List.map_map]
    rfl
  have hmem : ∀ s : String,
      (∃ e ∈ normalize_hybrid_scores v t vw tw, docId e.srec = some s) ↔
        ∃ e2 ∈ (procText (procVec [] 1 v) 1 t).map Prod.snd, docId e2.srec = some s := by
    intro s
    constructor
    · rintro ⟨e, he, hse⟩
      have h1 : some s ∈ (normalize_hybrid_scores v t vw tw).map (fun e => docId e.srec) :=
        List.mem_map.mpr ⟨e, he, hse⟩
      rw [hmapeq] at h1
      have h2 := hperm.mem_iff.mp h1
      rw [hinner] at h2
      rcases List.mem_map.mp h2 with ⟨e2, he2, hse2⟩
      exact ⟨e2, he2, hse2⟩
    · rintro ⟨e2, he2, hse2⟩
      have h1 : some s ∈ ((procText (procVec [] 1 v) 1 t).map Prod.snd).map
          (fun e => docId e.srec) := List.mem_map.mpr ⟨e2, he2, hse2⟩
      rw [← hinner] at h1
      have h2 := hperm.mem_iff.mpr h1
      rw [← hmapeq] at h2
      rcases List.mem_map.mp h2 with ⟨e, he, hse⟩
      exact ⟨e, he, hse⟩
  have hkeymem : ∀ s : String,
      (∃ e2 ∈ (procText (procVec [] 1 v) 1 t).map Prod.snd, docId e2.srec = some s) ↔
        (rmapLookup s (procText (procVec [] 1 v) 1 t)).isSome := by
    intro s
    constructor
    · rintro ⟨e2, he2, hse2⟩
      rcases exists_key_of_mem_snd _ _ he2 with ⟨k, hk⟩
      have hks : k = s := by
        have h3 := hids (k, e2) hk
        rw [hse2] at h3
        exact (Option.some.inj h3).symm
      subst hks
      exact rmapLookup_isSome_of_mem k _ e2 hk
    · intro hsome
      rcases Option.isSome_iff_exists.mp hsome with ⟨e2, he2⟩
      have hk := rmapLookup_mem s _ e2 he2
      exact ⟨e2, List.mem_map_of_mem Prod.snd hk, hids (s, e2) hk⟩
  refine ⟨?_, ?_⟩
  · intro e he
    have h1 : docId e.srec ∈ (normalize_hybrid_scores v t vw tw).map (fun e => docId e.srec) :=
      List.mem_map_of_mem _ he
    rw [hmapeq] at h1
    have h2 := hperm.mem_iff.mp h1
    rw [hinner] at h2
    rcases List.mem_map.mp h2 with ⟨e2, he2, hse2⟩
    rcases exists_key_of_mem_snd _ _ he2 with ⟨k, hk⟩
    rw [← hse2, hids (k, e2) hk]
    rfl
  · intro s
    rw [hmem s, hkeymem s, procText_lookup_isSome, procVec_lookup_isSome]
    simp [rmapLookup]

theorem rmapLookup_eq_none_of_not_mem (k : String) (m : List (String × HEntry))
    (h : k ∉ m.map Prod.fst) : rmapLookup k m = none := by
  induction m with
  | nil => rfl
  | cons q rest ih =>
    obtain ⟨k', e'⟩ := q
    simp only [List.map_cons, List.mem_cons] at h
    push_neg at h
    obtain ⟨h1, h2⟩ := h
    simp only [rmapLookup, if_neg (Ne.symm h1)]
    exact ih h2

theorem rmapInsert_eq_append (k : String) (e : HEntry) (m : List (String × HEntry))
    (h : k ∉ m.map Prod.fst) : rmapInsert k e m = m ++ [(k, e)] := by
  induction m with
  | nil => rfl
  | cons q rest ih =>
    obtain ⟨k', e'⟩ := q
    simp only [List.map_cons, List.mem_cons] at h
    push_neg at h
    obtain ⟨h1, h2⟩ := h
    simp only [rmapInsert, if_neg (Ne.symm h1)]
    rw [ih h2, List.cons_append]

/-- The result map built by the vector phase alone (fresh accumulator,
no duplicate ids): one entry per id-carrying record, in list order. -/
def vecPhaseList : ℕ → List SRec → List (String × HEntry)
  | _, [] => []
  | n, r :: rs =>
    match docId r with
    | some k => (k, mkVecEntry r n) :: vecPhaseList (n + 1) rs
    | none => vecPhaseList (n + 1) rs

/-- The result map built by the text phase alone over a fresh accumulator. -/
def textPhaseList : ℕ → List SRec → List (String × HEntry)
  | _, [] => []
  | n, r :: rs =>
    match docId r with
    | some k => (k, mkTextEntry r n) :: textPhaseList (n + 1) rs
    | none => textPhaseList (n + 1) rs

theorem procVec_eq_append (v : List SRec) (hnd : (idsOf v).Nodup)
    (m : List (String × HEntry)) (n : ℕ)
    (hfresh : ∀ k ∈ idsOf v, k ∉ m.map Prod.fst) :
    procVec m n v = m ++ vecPhaseList n v := by
  induction v generalizing m n with
  | nil => simp [procVec, vecPhaseList]
  | cons r rs ih =>
    cases hid : docId r with
    | none =>
      simp only [procVec, vecPhaseList, hid]
      exact ih (by rwa [idsOf_cons_none r rs hid] at hnd) m (n + 1)
        fun k hk => hfresh k (by rw [idsOf_cons_none r rs hid]; exact hk)
    | some k =>
      have hcons := idsOf_cons_some r rs k hid
      have hnd2 : (k :: idsOf rs).Nodup := hcons ▸ hnd
      have hknotin : k ∉ idsOf rs := (List.nodup_cons.mp hnd2).1
      simp only [procVec, vecPhaseList, hid]
      rw [rmapInsert_eq_append k _ m
        (hfresh k (by rw [hcons]; exact List.mem_cons_self _ _))]
      rw [ih hnd2.of_cons (m ++ [(k, mkVecEntry r n)]) (n + 1) ?_]
      · rw [List.append_assoc]
        rfl
      · intro k' hk'
        simp only [List.map_append, List.mem_append, List.map_cons]
        push_neg
        refine ⟨hfresh k' (by rw [hcons]; exact List.mem_cons_of_mem _ hk'), ?_⟩
        simp only [List.map_nil, List.mem_singleton]
        intro hkk
        subst hkk
        exact hknotin hk'

theorem procText_eq_append (t : List SRec) (hnd : (idsOf t).Nodup)
    (m : List (String × HEntry)) (n : ℕ)
    (hfresh : ∀ k ∈ idsOf t, k ∉ m.map Prod.fst) :
    procText m n t = m ++ textPhaseList n t := by
  induction t generalizing m n with
  | nil => simp [procText, textPhaseList]
  | cons r rs ih =>
    cases hid : docId r with
    | none =>
      simp only [procText, textPhaseList, hid]
      exact ih (by rwa [idsOf_cons_none r rs hid] at hnd) m (n + 1)
        fun k hk => hfresh k (by rw [idsOf_cons_none r rs hid]; exact hk)
    | some k =>
      have hcons := idsOf_cons_some r rs k hid
      have hnd2 : (k :: idsOf rs).Nodup := hcons ▸ hnd
      have hknotin : k ∉ idsOf rs := (List.nodup_cons.mp hnd2).1
      have hnotin : k ∉ m.map Prod.fst :=
        hfresh k (by rw [hcons]; exact List.mem_cons_self _ _)
      simp only [procText, textPhaseList, hid, rmapLookup_eq_none_of_not_mem k m hnotin]
      rw [rmapInsert_eq_append k _ m hnotin]
      rw [ih hnd2.of_cons (m ++ [(k, mkTextEntry r n)]) (n + 1) ?_]
      · rw [List.append_assoc]
        rfl
      · intro k' hk'
        simp only [List.map_append, List.mem_append, List.map_cons]
        push_neg
        refine ⟨hfresh k' (by rw [hcons]; exact List.mem_cons_of_mem _ hk'), ?_⟩
        simp only [List.map_nil, List.mem_singleton]
        intro hkk
        subst hkk
        exact hknotin hk'

theorem div_mono_nonneg (a : ℚ) (ha : 0 ≤ a) (b c : ℚ) (hb : 0 < b) (hbc : b ≤ c) :
    a / c ≤ a / b := by
  rw [div_eq_mul_inv, div_eq_mul_inv]
  exact mul_le_mul_of_nonneg_left (inv_le_inv_of_le hb hbc) ha

theorem rrf_step_le (w : ℚ) (hw : 0 ≤ w) (n : ℕ) :
    w / ((rrfK : ℚ) + ((n + 1 : ℕ) : ℚ)) * 100 ≤ w / ((rrfK : ℚ) + (n : ℚ)) * 100 := by
  have h60 : ((rrfK : ℕ) : ℚ) = 60 := by norm_num [rrfK]
  apply mul_le_mul_of_nonneg_right _ (by norm_num)
  apply div_mono_nonneg w hw _ _ ?_ ?_
  · rw [h60]
    positivity
  · push_cast
    linarith

theorem vecPhase_applied_bound (vw tw : ℚ) (hvw : 0 ≤ vw) (n : ℕ) (l : List SRec) :
    ∀ a ∈ (vecPhaseList n l).map fun p => applyRRF vw tw p.2,
      a.hybrid_score ≤ vw / ((rrfK : ℚ) + (n : ℚ)) * 100 := by
  induction l generalizing n with
  | nil => simp [vecPhaseList]
  | cons r rs ih =>
    intro a ha
    cases hid : docId r with
    | none =>
      rw [vecPhaseList, hid] at ha
      exact le_trans (ih (n + 1) a ha) (rrf_step_le vw hvw n)
    | some k =>
      rw [vecPhaseList, hid, List.map_cons] at ha
      rcases List.mem_cons.mp ha with rfl | ha'
      · have hh : (applyRRF vw tw (mkVecEntry r n)).hybrid_score =
            vw / ((rrfK : ℚ) + (n : ℚ)) * 100 := by
          simp only [applyRRF, mkVecEntry]
          rw [add_zero]
        rw [hh]
      · exact le_trans (ih (n + 1) a ha') (rrf_step_le vw hvw n)

theorem vecPhase_applied_pairwise (vw tw : ℚ) (hvw : 0 ≤ vw) (n : ℕ) (l : List SRec) :
    ((vecPhaseList n l).map fun p => applyRRF vw tw p.2).Pairwise
      fun a b => b.hybrid_score ≤ a.hybrid_score := by
  induction l generalizing n with
  | nil => simp [vecPhaseList]
  | cons r rs ih =>
    cases hid : docId r with
    | none =>
      rw [vecPhaseList, hid]
      exact ih (n + 1)
    | some k =>
      rw [vecPhaseList, hid, List.map_cons]
      refine List.Pairwise.cons ?_ (ih (n + 1))
      intro a ha
      have hb := le_trans (vecPhase_applied_bound vw tw hvw (n + 1) rs a ha)
        (rrf_step_le vw hvw n)
      have hh : (applyRRF vw tw (mkVecEntry r n)).hybrid_score =
          vw / ((rrfK : ℚ) + (n : ℚ)) * 100 := by
        simp only [applyRRF, mkVecEntry]
        rw [add_zero]
      rw [hh]
      exact hb

theorem textPhase_applied_bound (vw tw : ℚ) (htw : 0 ≤ tw) (n : ℕ) (l : List SRec) :
    ∀ a ∈ (textPhaseList n l).map fun p => applyRRF vw tw p.2,
      a.hybrid_score ≤ tw / ((rrfK : ℚ) + (n : ℚ)) * 100 := by
  induction l generalizing n with
  | nil => simp [textPhaseList]
  | cons r rs ih =>
    intro a ha
    cases hid : docId r with
    | none =>
      rw [textPhaseList, hid] at ha
      exact le_trans (ih (n + 1) a ha) (rrf_step_le tw htw n)
    | some k =>
      rw [textPhaseList, hid, List.map_cons] at ha
      rcases List.mem_cons.mp ha with rfl | ha'
      · have hh : (applyRRF vw tw (mkTextEntry r n)).hybrid_score =
            tw / ((rrfK : ℚ) + (n : ℚ)) * 100 := by
          simp only [applyRRF, mkTextEntry]
          rw [zero_add]
        rw [hh]
      · exact le_trans (ih (n + 1) a ha') (rrf_step_le tw htw n)

theorem textPhase_applied_pairwise (vw tw : ℚ) (htw : 0 ≤ tw) (n : ℕ) (l : List SRec) :
    ((textPhaseList n l).map fun p => applyRRF vw tw p.2).Pairwise
      fun a b => b.hybrid_score ≤ a.hybrid_score := by
  induction l generalizing n with
  | nil => simp [textPhaseList]
  | cons r rs ih =>
    cases hid : docId r with
    | none =>
      rw [textPhaseList, hid]
      exact ih (n + 1)
    | some k =>
      rw [textPhaseList, hid, List.map_cons]
      refine List.Pairwise.cons ?_ (ih (n + 1))
      intro a ha
      have hb := le_trans (textPhase_applied_bound vw tw htw (n + 1) rs a ha)
        (rrf_step_le tw htw n)
      have hh : (applyRRF vw tw (mkTextEntry r n)).hybrid_score =
          tw / ((rrfK : ℚ) + (n : ℚ)) * 100 := by
        simp only [applyRRF, mkTextEntry]
        rw [zero_add]
      rw [hh]
      exact hb

theorem vecPhaseList_map_srec (n : ℕ) (l : List SRec) :
    (vecPhaseList n l).map (fun p => p.2.srec) = l.filter fun r => (docId r).isSome := by
  induction l generalizing n with
  | nil => rfl
  | cons r rs ih =>
    cases hid : docId r with
    | none => simp [vecPhaseList, hid, List.filter_cons, ih (n + 1)]
    | some k => simp [vecPhaseList, hid, List.filter_cons, ih (n + 1), mkVecEntry]

theorem textPhaseList_map_srec (n : ℕ) (l : List SRec) :
    (textPhaseList n l).map (fun p => p.2.srec) = l.filter fun r => (docId r).isSome := by
  induction l generalizing n with
  | nil => rfl
  | cons r rs ih =>
    cases hid : docId r with
    | none => simp [textPhaseList, hid, List.filter_cons, ih (n + 1)]
    | some k => simp [textPhaseList, hid, List.filter_cons, ih (n + 1), mkTextEntry]

/-- C6: fusing a non-empty list with an empty list (in either argument
position) keeps every id-carrying record of the list in its original
relative order (only scores are rescaled; records without a truthy id are
the only ones dropped), and fusing two empty lists yields the empty list
rather than an error.  Weights are assumed nonnegative, as everywhere in
the source. -/
theorem fusion_empty_degenerates (L : List SRec) (vw tw : ℚ)
    (hnd : (idsOf L).Nodup) (hvw : 0 ≤ vw) (htw : 0 ≤ tw) :
    ((normalize_hybrid_scores L [] vw tw).map HEntry.srec =
        L.filter fun r => (docId r).isSome)
    ∧ ((normalize_hybrid_scores [] L vw tw).map HEntry.srec =
        L.filter fun r => (docId r).isSome)
    ∧ normalize_hybrid_scores [] [] vw tw = [] := by
  have hm1 : procText (procVec [] 1 L) 1 [] = vecPhaseList 1 L := by
    show procVec [] 1 L = vecPhaseList 1 L
    have h := procVec_eq_append L hnd [] 1 (by intro k hk; simp)
    simpa using h
  have hm2 : procText (procVec [] 1 []) 1 L = textPhaseList 1 L := by
    show procText [] 1 L = textPhaseList 1 L
    have h := procText_eq_append L hnd [] 1 (by intro k hk; simp)
    simpa using h
  have hpw1 : (((vecPhaseList 1 L).map Prod.snd).map (applyRRF vw tw)).Pairwise
      fun a b => b.hybrid_score ≤ a.hybrid_score := by
    rw [List.map_map]
    exact vecPhase_applied_pairwise vw tw hvw 1 L
  have hpw2 : (((textPhaseList 1 L).map Prod.snd).map (applyRRF vw tw)).Pairwise
      fun a b => b.hybrid_score ≤ a.hybrid_score := by
    rw [List.map_map]
    exact textPhase_applied_pairwise vw tw htw 1 L
  have hsrec1 : (((vecPhaseList 1 L).map Prod.snd).map (applyRRF vw tw)).map HEntry.srec
      = L.filter (fun r => (docId r).isSome) := by
    rw [List.map_map, List.map_map]
    exact vecPhaseList_map_srec 1 L
  have hsrec2 : (((textPhaseList 1 L).map Prod.snd).map (applyRRF vw tw)).map HEntry.srec
      = L.filter (fun r => (docId r).isSome) := by
    rw [List.map_map, List.map_map]
    exact textPhaseList_map_srec 1 L
  refine ⟨?_, ?_, rfl⟩
  · simp only [normalize_hybrid_scores]
    rw [hm1]
    rw [assignRanksBy_map_eq setRank HEntry.srec (fun x n => rfl) 1 _]
    rw [sortDesc_eq_self _ _ hpw1]
    exact hsrec1
  · simp only [normalize_hybrid_scores]
    rw [hm2]
    rw [assignRanksBy_map_eq setRank HEntry.srec (fun x n => rfl) 1 _]
    rw [sortDesc_eq_self _ _ hpw2]
    exact hsrec2

/-- Witness for C6 at a concrete two-record list. -/
theorem fusion_empty_degenerates_witness :
    (idsOf [⟨some "a", none, 4, 0⟩, ⟨some "b", none, 3, 1⟩]).Nodup ∧
    (0 : ℚ) ≤ 6/10 ∧ (0 : ℚ) ≤ 4/10 ∧
    (((normalize_hybrid_scores [⟨some "a", none, 4, 0⟩, ⟨some "b", none, 3, 1⟩] []
          (6/10) (4/10)).map HEntry.srec =
        [⟨some "a", none, 4, 0⟩, ⟨some "b", none, 3, 1⟩].filter
          (fun r => (docId r).isSome))
      ∧ ((normalize_hybrid_scores [] [⟨some "a", none, 4, 0⟩, ⟨some "b", none, 3, 1⟩]
          (6/10) (4/10)).map HEntry.srec =
        [⟨some "a", none, 4, 0⟩, ⟨some "b", none, 3, 1⟩].filter
          (fun r => (docId r).isSome))
      ∧ normalize_hybrid_scores [] [] (6/10) (4/10) = []) :=
  ⟨by decide, by norm_num, by norm_num,
    fusion_empty_degenerates [⟨some "a", none, 4, 0⟩, ⟨some "b", none, 3, 1⟩]
      (6/10) (4/10) (by decide) (by norm_num) (by norm_num)⟩

/-- Result shape of `perform_hybrid_search`: the one-sided branches
return a surviving normalized result list unchanged (`passthrough`); the
two-sided branch returns fused entries. -/
inductive HybridOutcome where
  | passthrough (l : List SRec)
  | fused (l : List HEntry)
  deriving DecidableEq, Repr

/-- `perform_hybrid_search` (`articles/utils.py`), modelled from the
point where the two sub-searches have been attempted: an exception raised
inside a sub-search is caught and replaced by `[]`
(`except Exception: ... = []`), so an `Except.error` argument stands for
the raise.  Source defaults: `limit = 18`, `vector_weight = 0.6`,
`text_weight = 0.4`, `apply_reranking = False` (the modelled path). -/
def perform_hybrid_search (vres tres : Except Unit (List SRec)) (limit : ℕ)
    (vw tw : ℚ) : Except String HybridOutcome :=
  let vector_results := match vres with | .ok l => l | .error _ => []
  let text_results := match tres with | .ok l => l | .error _ => []
  if vector_results.isEmpty && text_results.isEmpty then
    .error "Both vector and text search failed"
  else if vector_results.isEmpty then .ok (.passthrough (text_results.take limit))
  else if text_results.isEmpty then .ok (.passthrough (vector_results.take limit))
  else .ok (.fused ((normalize_hybrid_scores vector_results text_results vw tw).take limit))

/-- The five vector results of the C2 scenario, with their original
normalized percentage scores. -/
def cexVecResults : List SRec :=
  [⟨some "a", none, 80, 0⟩, ⟨some "b", none, 70, 1⟩, ⟨some "c", none, 60, 2⟩,
   ⟨some "d", none, 50, 3⟩, ⟨some "e", none, 40, 4⟩]

/-- C2 counterexample: lexical retriever raises and the vector retriever
returns 5 results — hybrid search does return exactly those 5 results in
order, but their scores are the original normalized scores, not the
vector-only RRF contribution `100 * (0.6 / (60 + rank))` that the claim
asserts. -/
theorem hybrid_one_sided_scores_counterexample :
    perform_hybrid_search (.ok cexVecResults) (.error ()) 18 (6/10) (4/10) =
      .ok (.passthrough cexVecResults)
    ∧ cexVecResults.map SRec.score = [80, 70, 60, 50, 40]
    ∧ ¬(cexVecResults.map SRec.score =
        (List.range' 1 5).map fun r => 100 * ((6 : ℚ)/10 / ((rrfK : ℚ) + r))) := by
  refine ⟨rfl, rfl, ?_⟩
  simp only [cexVecResults, rrfK, List.range', List.map_cons, List.map_nil,
    List.cons.injEq, not_and]
  intro h
  norm_num at h

/-- C2 amended: when exactly one sub-retriever fails (raises or returns
empty) and the other returns a non-empty list, `perform_hybrid_search`
returns the survivor's first `limit` results completely unchanged (same
records, same order, same original scores — RRF fusion is skipped), and
it propagates the terminal error exactly when both sub-searches yield
nothing. -/
theorem hybrid_one_sided_survivor (lv lt : List SRec)
    (ev et vres tres : Except Unit (List SRec)) (limit : ℕ) (vw tw : ℚ)
    (hvne : lv ≠ []) (htne : lt ≠ [])
    (het : et = .error () ∨ et = .ok []) (hev : ev = .error () ∨ ev = .ok []) :
    perform_hybrid_search (.ok lv) et limit vw tw = .ok (.passthrough (lv.take limit))
    ∧ perform_hybrid_search ev (.ok lt) limit vw tw = .ok (.passthrough (lt.take limit))
    ∧ (perform_hybrid_search vres tres limit vw tw =
        .error "Both vector and text search failed" ↔
        (match vres with | .ok l => l | .error _ => []) = [] ∧
        (match tres with | .ok l => l | .error _ => []) = []) := by
  refine ⟨?_, ?_, ?_⟩
  · rcases lv with _ | ⟨x, xs⟩
    · exact absurd rfl hvne
    · rcases het with rfl | rfl <;> simp [perform_hybrid_search]
  · rcases lt with _ | ⟨x, xs⟩
    · exact absurd rfl htne
    · rcases hev with rfl | rfl <;> simp [perform_hybrid_search]
  · rcases vres with u | (_ | ⟨a, as⟩) <;> rcases tres with w | (_ | ⟨b, bs⟩) <;>
      simp [perform_hybrid_search]

/-- Witness for the amended C2 at the concrete scenario input. -/
theorem hybrid_one_sided_survivor_witness :
    cexVecResults ≠ [] ∧
    ((Except.error () : Except Unit (List SRec)) = .error () ∨
      (Except.error () : Except Unit (List SRec)) = .ok []) ∧
    (perform_hybrid_search (.ok cexVecResults) (.error ()) 18 (6/10) (4/10) =
        .ok (.passthrough (cexVecResults.take 18))
      ∧ perform_hybrid_search (.error ()) (.ok cexVecResults) 18 (6/10) (4/10) =
        .ok (.passthrough (cexVecResults.take 18))
      ∧ (perform_hybrid_search (.error ()) (.error ()) 18 (6/10) (4/10) =
          .error "Both vector and text search failed" ↔
          (match (Except.error () : Except Unit (List SRec)) with
            | .ok l => l | .error _ => []) = [] ∧
          (match (Except.error () : Except Unit (List SRec)) with
            | .ok l => l | .error _ => []) = [])) :=
  ⟨by decide, Or.inl rfl,
    hybrid_one_sided_survivor cexVecResults cexVecResults (.error ()) (.error ())
      (.error ()) (.error ()) 18 (6/10) (4/10)
      (by decide) (by decide) (Or.inl rfl) (Or.inl rfl)⟩

/-- A raw candidate record entering `normalize_search_results`: `isDict`
distinguishes the dict branch from the object branch (their score logic is
identical), `rawScore` is the value found under the `score` key or
attribute, and `payload` stands for the display fields the function copies
through unchanged. -/
structure NRec where
  isDict : Bool
  rawScore : RawVal
  payload : ℕ
  deriving DecidableEq, Repr

/-- A normalized result record: percentage score plus 1-based rank. -/
structure NOut where
  score : ℚ
  rank : ℕ
  payload : ℕ
  deriving DecidableEq, Repr

/-- The score computation of `normalize_search_results`:
`item['score'] = float(item.get('score', 0)) * 100`, with
`except (TypeError, ValueError): item['score'] = 0`.  An absent key means
`float(0) * 100`, a non-coercible value means the handler's `0`.  There is
no clamping. -/
def normalizeScore : RawVal → ℚ
  | .num q => q * 100
  | .absent => 0 * 100
  | .bad => 0

/-- `normalize_search_results` (`articles/utils.py`): per-record score
normalization (identical in the dict and the object branch), then 1-based
rank assignment by output position. -/
def normalize_search_results (results : List NRec) : List NOut :=
  assignRanksBy (fun o n => { o with rank := n }) 1
    (results.map fun r =>
      if r.isDict then { score := normalizeScore r.rawScore, rank := 0, payload := r.payload }
      else { score := normalizeScore r.rawScore, rank := 0, payload := r.payload })

/-- C3 counterexample: a raw record with score `2.0` (a legal input, e.g.
from an arbitrary positive text-search scale) is normalized to `200`,
outside the `[0, 100]` range the claim asserts. -/
theorem normalize_score_range_counterexample :
    (normalize_search_results [⟨true, .num 2, 0⟩]).map NOut.score = [200]
    ∧ ¬((200 : ℚ) ≤ 100) := by
  constructor
  · simp [normalize_search_results, normalizeScore, assignRanksBy]
    norm_num
  · norm_num

/-- C3 amended: the score is the raw score multiplied by 100 with default
0 on coercion failure or absence — without any clamping, so it lies in
[0, 100] only when the raw score lies in [0, 1] — and normalization never
raises (it is total and defined for every record). -/
theorem normalize_score_scaling (results : List NRec) :
    (normalize_search_results results).map NOut.score =
      results.map (fun r => normalizeScore r.rawScore)
    ∧ (normalize_search_results results).length = results.length
    ∧ ∀ q : ℚ, 0 ≤ q → q ≤ 1 →
        0 ≤ normalizeScore (.num q) ∧ normalizeScore (.num q) ≤ 100 := by
  refine ⟨?_, ?_, ?_⟩
  · rw [normalize_search_results,
      assignRanksBy_map_eq (fun o n => { o with rank := n }) NOut.score (fun x n => rfl) 1 _,
      List.map_map]
    apply List.map_congr_left
    intro r _
    by_cases h : r.isDict <;> simp [h]
  · rw [normalize_search_results, assignRanksBy_length, List.length_map]
  · intro q h0 h1
    constructor
    · show 0 ≤ q * 100
      nlinarith
    · show q * 100 ≤ 100
      nlinarith

/-- Witness for the amended C3 at raw score `1/2`. -/
theorem normalize_score_scaling_witness :
    (0 : ℚ) ≤ 1/2 ∧ (1/2 : ℚ) ≤ 1 ∧
    (0 ≤ normalizeScore (.num (1/2)) ∧ normalizeScore (.num (1/2)) ≤ 100) :=
  ⟨by norm_num, by norm_num,
    (normalize_score_scaling [⟨true, .num (1/2), 0⟩]).2.2 (1/2) (by norm_num) (by norm_num)⟩

/-- Python `str.lower()` on a char list (the claims evaluate ASCII text,
where per-char lowering coincides with Python). -/
def pyLower (s : List Char) : List Char := s.map Char.toLower

/-- A word character of the regex in `Reranker._tokenize` (ASCII range;
letters, digits, underscore). -/
def wordChar (c : Char) : Bool := c.isAlphanum || c = '_'

/-- The substitution of `Reranker._tokenize`: every character that is
neither a word character nor whitespace becomes a space. -/
def subNonWord (s : List Char) : List Char :=
  s.map fun c => if wordChar c || c.isWhitespace then c else ' '

/-- Python `str.split()`: split on whitespace runs, dropping empty
pieces; `acc` holds the current token reversed. -/
def splitWsAux : List Char → List Char → List (List Char)
  | acc, [] => if acc.isEmpty then [] else [acc.reverse]
  | acc, c :: cs =>
    if c.isWhitespace then
      if acc.isEmpty then splitWsAux [] cs else acc.reverse :: splitWsAux [] cs
    else splitWsAux (c :: acc) cs

/-- Python `str.split()` with no separator argument. -/
def splitWs (s : List Char) : List (List Char) := splitWsAux [] s

/-- `Reranker._tokenize`: lowercase, substitute non-word non-space
characters by spaces, split on whitespace (the final
`if token` filter is a no-op since `split()` drops empties). -/
def tokenize (text : List Char) : List (List Char) :=
  splitWs (subNonWord (pyLower text))

/-- Python `' '.join(tokens)`. -/
def joinSpace : List (List Char) → List Char
  | [] => []
  | [t] => t
  | t :: ts => t ++ ' ' :: joinSpace ts

/-- Python `haystack.find(needle)` returning the first match position
(`none` for `-1`); an empty needle matches at 0, as in Python.  The
membership test `needle in haystack` is `(findSub ...).isSome`. -/
def findSub (pat : List Char) : List Char → Option ℕ
  | [] => if pat.isPrefixOf [] then some 0 else none
  | c :: rest =>
    if pat.isPrefixOf (c :: rest) then some 0
    else (findSub pat rest).map (· + 1)

/-- `Reranker._calculate_fallback_score`: exact-phrase bonus 10 with an
early-position bonus `max(0, 5 - position/100)`, per-token frequency
bonus `count * 0.2`, query-coverage bonus `(matches/len(query)) * 5`, all
summed and squashed by `min(1, total/20)`. -/
def calculate_fallback_score (query_tokens : List (List Char)) (doc_text : List Char) : ℚ :=
  let doc_text_lower := pyLower doc_text
  let query_phrase := joinSpace query_tokens
  let found := findSub query_phrase doc_text_lower
  let exact_match_score : ℚ := match found with | some _ => 10 | none => 0
  let position_score : ℚ :=
    match found with | some p => max 0 (5 - (p : ℚ) / 100) | none => 0
  let doc_tokens := tokenize doc_text
  let freq_score : ℚ := query_tokens.foldl
    (fun acc qt => if qt ∈ doc_tokens then acc + (doc_tokens.count qt : ℚ) * (2/10) else acc) 0
  let total_matches : ℕ := query_tokens.countP fun qt => decide (qt ∈ doc_tokens)
  let coverage_score : ℚ :=
    if query_tokens.length ≠ 0 then ((total_matches : ℚ) / query_tokens.length) * 5 else 0
  let token_match_score := freq_score + coverage_score
  let final_score := exact_match_score + token_match_score + position_score
  min 1 (final_score / 20)

theorem freq_fold_ge (qts dts : List (List Char)) (a : ℚ) :
    a ≤ qts.foldl
      (fun acc qt => if qt ∈ dts then acc + (dts.count qt : ℚ) * (2/10) else acc) a := by
  induction qts generalizing a with
  | nil => simp
  | cons q qs ih =>
    simp only [List.foldl_cons]
    by_cases h : q ∈ dts
    · rw [if_pos h]
      refine le_trans ?_ (ih (a + (dts.count q : ℚ) * (2/10)))
      have hc : (0 : ℚ) ≤ (dts.count q : ℚ) * (2/10) := by positivity
      linarith
    · rw [if_neg h]
      exact ih a

theorem freq_fold_no_match (qts dts : List (List Char)) (a : ℚ)
    (h : ∀ qt ∈ qts, qt ∉ dts) :
    qts.foldl
      (fun acc qt => if qt ∈ dts then acc + (dts.count qt : ℚ) * (2/10) else acc) a = a := by
  induction qts generalizing a with
  | nil => rfl
  | cons q qs ih =>
    simp only [List.foldl_cons, if_neg (h q (List.mem_cons_self q qs))]
    exact ih a fun qt hqt => h qt (List.mem_cons_of_mem q hqt)

theorem calculate_fallback_score_bounds (qt : List (List Char)) (dt : List Char) :
    0 ≤ calculate_fallback_score qt dt ∧ calculate_fallback_score qt dt ≤ 1 := by
  simp only [calculate_fallback_score]
  constructor
  · apply le_min (by norm_num)
    apply div_nonneg _ (by norm_num)
    have hexact : (0 : ℚ) ≤ match findSub (joinSpace qt) (pyLower dt) with
        | some _ => (10 : ℚ) | none => 0 := by
      cases findSub (joinSpace qt) (pyLower dt) <;> norm_num
    have hpos : (0 : ℚ) ≤ match findSub (joinSpace qt) (pyLower dt) with
        | some p => max 0 (5 - (p : ℚ) / 100) | none => 0 := by
      cases findSub (joinSpace qt) (pyLower dt) with
      | none => norm_num
      | some p => exact le_max_left 0 _
    have hfreq : (0 : ℚ) ≤ qt.foldl
        (fun acc q => if q ∈ tokenize dt then
          acc + ((tokenize dt).count q : ℚ) * (2/10) else acc) 0 :=
      freq_fold_ge qt (tokenize dt) 0
    have hcov : (0 : ℚ) ≤ if qt.length ≠ 0 then
        ((qt.countP fun q => decide (q ∈ tokenize dt) : ℕ) : ℚ) / qt.length * 5 else 0 := by
      by_cases h : qt.length ≠ 0
      · rw [if_pos h]
        positivity
      · rw [if_neg h]
    linarith
  · exact min_le_left 1 _

/-- The query of the C7 scenario. -/
def queryCrescita : String := "crescita economica"

/-- A candidate text containing the exact query phrase early. -/
def docItalian : String := "La crescita economica italiana accelera nel 2024"

/-- A candidate text with no query-token overlap. -/
def docCroatia : String := "Turismo in Croazia"

/-- C7: the heuristic fallback scorer is a pure bounded function of the
tokenized query and the candidate text — its value always lies in
`[0, 1]` — and for the query "crescita economica" it scores the text
containing the exact phrase strictly higher than the text with no
query-token overlap. -/
theorem heuristic_scorer_bounded_and_phrase (qt : List (List Char)) (dt : List Char) :
    (0 ≤ calculate_fallback_score qt dt ∧ calculate_fallback_score qt dt ≤ 1)
    ∧ calculate_fallback_score (tokenize queryCrescita.toList) docCroatia.toList <
      calculate_fallback_score (tokenize queryCrescita.toList) docItalian.toList := by
  refine ⟨calculate_fallback_score_bounds qt dt, ?_⟩
  have h1 : findSub (joinSpace (tokenize queryCrescita.toList))
      (pyLower docItalian.toList) = some 3 := by decide
  have h2 : findSub (joinSpace (tokenize queryCrescita.toList))
      (pyLower docCroatia.toList) = none := by decide
  have h3 : ∀ q ∈ tokenize queryCrescita.toList, q ∉ tokenize docCroatia.toList := by decide
  have h4 : (tokenize queryCrescita.toList).countP
      (fun q => decide (q ∈ tokenize docCroatia.toList)) = 0 := by decide
  have htokq : (tokenize queryCrescita.toList).length = 2 := by decide
  have hB : calculate_fallback_score (tokenize queryCrescita.toList) docCroatia.toList = 0 := by
    simp only [calculate_fallback_score, h2, h4, htokq]
    rw [freq_fold_no_match _ _ 0 h3]
    norm_num
  have hA : 0 < calculate_fallback_score (tokenize queryCrescita.toList) docItalian.toList := by
    simp only [calculate_fallback_score, h1]
    apply lt_min (by norm_num)
    apply div_pos _ (by norm_num)
    have hfreq := freq_fold_ge (tokenize queryCrescita.toList) (tokenize docItalian.toList) 0
    have hcov : (0 : ℚ) ≤ if (tokenize queryCrescita.toList).length ≠ 0 then
        (((tokenize queryCrescita.toList).countP
          (fun q => decide (q ∈ tokenize docItalian.toList)) : ℕ) : ℚ) /
          (tokenize queryCrescita.toList).length * 5 else 0 := by
      by_cases h : (tokenize queryCrescita.toList).length ≠ 0
      · rw [if_pos h]
        positivity
      · rw [if_neg h]
    have hmax : (0 : ℚ) ≤ max 0 (5 - ((3 : ℕ) : ℚ) / 100) := le_max_left 0 _
    linarith
  rw [hB]
  exact hA

theorem assignRanksBy_map_rank_gen (set : α → ℕ → α) (g : α → β) (mk : ℕ → β)
    (hg : ∀ x n, g (set x n) = mk n) (n : ℕ) (l : List α) :
    (assignRanksBy set n l).map g = (List.range' n l.length).map mk := by
  induction l generalizing n with
  | nil => rfl
  | cons x xs ih => simp [assignRanksBy, hg, ih, List.range'_succ]

theorem range'_take (s n m : ℕ) : (List.range' s n).take m = List.range' s (min m n) := by
  induction n generalizing s m with
  | zero => simp
  | succ k ih =>
    cases m with
    | zero => simp
    | succ j =>
      rw [List.range'_succ, List.take_succ_cons, ih (s + 1) j, Nat.succ_min_succ,
        List.range'_succ]

/-- A candidate dict entering `Reranker.rerank`: `title` and `content`
hold the text the `or`-chains over the language fields resolve to (which
field supplied them affects no claim), `rank` and `rerank_score` are the
keys the reranker writes, `payload` stands for every other field. -/
structure RDocP where
  title : List Char
  content : List Char
  rank : Option ℕ
  rerank_score : Option ℚ
  payload : ℕ
  deriving DecidableEq, Repr

/-- The text scored for one candidate:
`text = f"{title}\n{content}"` with `content = content[:500]`. -/
def docText (d : RDocP) : List Char := d.title ++ '\n' :: d.content.take 500

/-- The per-candidate score list of `Reranker.rerank`: the ML scores when
a cross-encoder or transformers strategy produced them (`scores` is not
`None`), otherwise the token-matching fallback applied to every document
text. -/
def resolveScores (query : List Char) (texts : List (List Char)) :
    Option (List ℚ) → List ℚ
  | some s => s
  | none => texts.map (calculate_fallback_score (tokenize query))

/-- The scored copies: `orig_doc = docs[i].copy();
orig_doc['rerank_score'] = float(score)` for each score (one per doc). -/
def scoredDocs (docs : List RDocP) (scores : List ℚ) : List RDocP :=
  (docs.zip scores).map fun p => { p.1 with rerank_score := some p.2 }

/-- The sort key `lambda x: x['rerank_score']`; the key is always present
at this point, the default is never read. -/
def rerankKey (d : RDocP) : ℚ := d.rerank_score.getD 0

/-- The rank write `doc['rank'] = i` of the reranker. -/
def setRankR (d : RDocP) (n : ℕ) : RDocP := { d with rank := some n }

/-- The tail of `Reranker.rerank` once scores exist: score the copies,
sort by descending `rerank_score` (stable), assign 1-based ranks. -/
def rerankCore (docs : List RDocP) (scores : List ℚ) : List RDocP :=
  assignRanksBy setRankR 1 (sortDesc rerankKey (scoredDocs docs scores))

/-- `Reranker.rerank`: empty input short-circuits to `[]`; otherwise the
scored, sorted, ranked list truncated to `limit`.  `mlScores = none`
models both ML strategies failing, in which case the heuristic fallback
scores are used; nothing in the modelled body raises, so the outer
`except` branch returning `docs[:limit]` is unreachable. -/
def rerank (query : List Char) (docs : List RDocP) (mlScores : Option (List ℚ))
    (limit : ℕ) : List RDocP :=
  if docs.isEmpty then []
  else (rerankCore docs (resolveScores query (docs.map docText) mlScores)).take limit

/-- `rerank_search_results`: when no reranker implementation could be
loaded (`not reranker.is_available()`), return the original results
truncated to `limit`; otherwise delegate to `Reranker.rerank`. -/
def rerank_search_results (available : Bool) (query : List Char)
    (results : List RDocP) (mlScores : Option (List ℚ)) (limit : ℕ) : List RDocP :=
  if available then rerank query results mlScores limit
  else results.take limit

/-- C4: with both ML strategies unavailable the reranking operation still
returns (it is total, never raising for a model failure), and both the
heuristic fallback path (`rerank` with no ML scores) and the
original-order fallback path (`rerank_search_results` with no reranker
available, whose inputs are normalized results carrying ranks 1..N)
return exactly `min limit N` results carrying the unique ranks
`1, ..., min limit N` in order. -/
theorem rerank_fallback_degrades (query : List Char) (docs : List RDocP) (limit : ℕ)
    (hranks : docs.map RDocP.rank = (List.range' 1 docs.length).map some) :
    ((rerank query docs none limit).length = min limit docs.length
      ∧ (rerank query docs none limit).map RDocP.rank =
          (List.range' 1 (min limit docs.length)).map some)
    ∧ (rerank_search_results false query docs none limit).length = min limit docs.length
    ∧ (rerank_search_results false query docs none limit).map RDocP.rank =
        (List.range' 1 (min limit docs.length)).map some := by
  have hpass : rerank_search_results false query docs none limit = docs.take limit := rfl
  have hpl : (docs.take limit).length = min limit docs.length := List.length_take limit docs
  have hpm : (docs.take limit).map RDocP.rank =
      (List.range' 1 (min limit docs.length)).map some := by
    rw [List.map_take, hranks, ← List.map_take, range'_take]
  cases docs with
  | nil =>
    refine ⟨⟨?_, ?_⟩, ?_, ?_⟩ <;> simp [rerank, rerank_search_results]
  | cons d ds =>
    have hne : (d :: ds).isEmpty = false := rfl
    have hslen : (scoredDocs (d :: ds)
        (resolveScores query ((d :: ds).map docText) none)).length = (d :: ds).length := by
      simp [scoredDocs, resolveScores, List.length_zip, List.length_map]
    have hsortlen : (sortDesc rerankKey (scoredDocs (d :: ds)
        (resolveScores query ((d :: ds).map docText) none))).length = (d :: ds).length := by
      rw [(sortDesc_perm _ _).length_eq, hslen]
    have hcore_len : (rerankCore (d :: ds)
        (resolveScores query ((d :: ds).map docText) none)).length = (d :: ds).length := by
      rw [rerankCore, assignRanksBy_length, hsortlen]
    have hcore_ranks : (rerankCore (d :: ds)
        (resolveScores query ((d :: ds).map docText) none)).map RDocP.rank =
        (List.range' 1 (d :: ds).length).map some := by
      rw [rerankCore, assignRanksBy_map_rank_gen setRankR RDocP.rank some (fun x n => rfl) 1 _,
        hsortlen]
    have hrk : rerank query (d :: ds) none limit =
        (rerankCore (d :: ds) (resolveScores query ((d :: ds).map docText) none)).take limit := by
      rw [rerank, hne]
      rfl
    refine ⟨⟨?_, ?_⟩, ?_, ?_⟩
    · rw [hrk, List.length_take, hcore_len]
    · rw [hrk, List.map_take, hcore_ranks, ← List.map_take, range'_take]
    · rw [hpass, hpl]
    · rw [hpass, hpm]

/-- Witness for C4 at two concrete ranked candidates and limit 1. -/
theorem rerank_fallback_degrades_witness :
    ([⟨[], [], some 1, none, 0⟩, ⟨[], [], some 2, none, 1⟩] : List RDocP).map RDocP.rank =
      (List.range' 1 ([⟨[], [], some 1, none, 0⟩,
        ⟨[], [], some 2, none, 1⟩] : List RDocP).length).map some ∧
    (((rerank [] [⟨[], [], some 1, none, 0⟩, ⟨[], [], some 2, none, 1⟩] none 1).length =
        min 1 ([⟨[], [], some 1, none, 0⟩, ⟨[], [], some 2, none, 1⟩] : List RDocP).length
      ∧ (rerank [] [⟨[], [], some 1, none, 0⟩, ⟨[], [], some 2, none, 1⟩] none 1).map
          RDocP.rank = (List.range' 1 (min 1 ([⟨[], [], some 1, none, 0⟩,
            ⟨[], [], some 2, none, 1⟩] : List RDocP).length)).map some)
    ∧ (rerank_search_results false [] [⟨[], [], some 1, none, 0⟩,
        ⟨[], [], some 2, none, 1⟩] none 1).length =
        min 1 ([⟨[], [], some 1, none, 0⟩, ⟨[], [], some 2, none, 1⟩] : List RDocP).length
    ∧ (rerank_search_results false [] [⟨[], [], some 1, none, 0⟩,
        ⟨[], [], some 2, none, 1⟩] none 1).map RDocP.rank =
        (List.range' 1 (min 1 ([⟨[], [], some 1, none, 0⟩,
          ⟨[], [], some 2, none, 1⟩] : List RDocP).length)).map some) :=
  ⟨by decide,
    rerank_fallback_degrades [] [⟨[], [], some 1, none, 0⟩, ⟨[], [], some 2, none, 1⟩] 1
      (by decide)⟩

/-- C5: for every candidate list and every equally long strategy score
list, the reranking tail scores every input candidate (none dropped
before ranking: the ranked list is a permutation of the scored inputs and
every entry carries a `rerank_score`), sorts by descending `rerank_score`
with ties broken by input order (any precedence `P` holding along the
scored input order still holds on equal-score pairs of the output), and
the returned top-`limit` results carry the 1-based ranks
`1, ..., min limit N` in order. -/
theorem rerank_scores_all_and_sorts (docs : List RDocP) (scores : List ℚ)
    (P : RDocP → RDocP → Prop) (limit : ℕ)
    (hlen : scores.length = docs.length)
    (hP : (scoredDocs docs scores).Pairwise P) :
    (scoredDocs docs scores).map RDocP.payload = docs.map RDocP.payload
    ∧ (∀ d ∈ scoredDocs docs scores, d.rerank_score.isSome)
    ∧ ((rerankCore docs scores).map RDocP.payload).Perm (docs.map RDocP.payload)
    ∧ (sortDesc rerankKey (scoredDocs docs scores)).Pairwise
        (fun a b => rerankKey b < rerankKey a ∨ (rerankKey a = rerankKey b ∧ P a b))
    ∧ ((rerankCore docs scores).take limit).map RDocP.rank =
        (List.range' 1 (min limit docs.length)).map some := by
  have hpayload : (scoredDocs docs scores).map RDocP.payload = docs.map RDocP.payload := by
    have h1 : (scoredDocs docs scores).map RDocP.payload =
        ((docs.zip scores).map Prod.fst).map RDocP.payload := by
      simp [scoredDocs, List.map_map]
    rw [h1, List.map_fst_zip docs scores hlen.ge]
  have hslen : (scoredDocs docs scores).length = docs.length := by
    simp [scoredDocs, List.length_zip, List.length_map, hlen]
  have hsortlen : (sortDesc rerankKey (scoredDocs docs scores)).length = docs.length := by
    rw [(sortDesc_perm _ _).length_eq, hslen]
  refine ⟨hpayload, ?_, ?_, ?_, ?_⟩
  · intro d hd
    simp only [scoredDocs, List.mem_map] at hd
    rcases hd with ⟨p, _, rfl⟩
    rfl
  · have h2 : (rerankCore docs scores).map RDocP.payload =
        (sortDesc rerankKey (scoredDocs docs scores)).map RDocP.payload := by
      rw [rerankCore]
      exact assignRanksBy_map_eq setRankR RDocP.payload (fun x n => rfl) 1 _
    rw [h2, ← hpayload]
    exact (sortDesc_perm _ _).map RDocP.payload
  · exact sortDesc_pairwise rerankKey P _ hP
  · rw [rerankCore, List.map_take,
      assignRanksBy_map_rank_gen setRankR RDocP.rank some (fun x n => rfl) 1 _,
      hsortlen, ← List.map_take, range'_take]

/-- Witness for C5 at two concrete candidates with strategy scores. -/
theorem rerank_scores_all_and_sorts_witness :
    ([(1 : ℚ), 2].length = ([⟨[], [], none, none, 0⟩,
        ⟨[], [], none, none, 1⟩] : List RDocP).length) ∧
    (scoredDocs [⟨[], [], none, none, 0⟩, ⟨[], [], none, none, 1⟩] [1, 2]).Pairwise
      (fun _ _ => True) ∧
    ((scoredDocs [⟨[], [], none, none, 0⟩, ⟨[], [], none, none, 1⟩] [1, 2]).map
        RDocP.payload =
      ([⟨[], [], none, none, 0⟩, ⟨[], [], none, none, 1⟩] : List RDocP).map RDocP.payload
    ∧ (∀ d ∈ scoredDocs [⟨[], [], none, none, 0⟩, ⟨[], [], none, none, 1⟩] [1, 2],
        d.rerank_score.isSome)
    ∧ ((rerankCore [⟨[], [], none, none, 0⟩, ⟨[], [], none, none, 1⟩] [1, 2]).map
        RDocP.payload).Perm
        (([⟨[], [], none, none, 0⟩, ⟨[], [], none, none, 1⟩] : List RDocP).map RDocP.payload)
    ∧ (sortDesc rerankKey
        (scoredDocs [⟨[], [], none, none, 0⟩, ⟨[], [], none, none, 1⟩] [1, 2])).Pairwise
        (fun a b => rerankKey b < rerankKey a ∨ (rerankKey a = rerankKey b ∧ True))
    ∧ ((rerankCore [⟨[], [], none, none, 0⟩, ⟨[], [], none, none, 1⟩] [1, 2]).take 1).map
        RDocP.rank = (List.range' 1 (min 1 ([⟨[], [], none, none, 0⟩,
          ⟨[], [], none, none, 1⟩] : List RDocP).length)).map some) :=
  ⟨rfl, pairwise_true _,
    rerank_scores_all_and_sorts [⟨[], [], none, none, 0⟩, ⟨[], [], none, none, 1⟩] [1, 2]
      (fun _ _ => True) 1 rfl (pairwise_true _)⟩

/-- Modelled from the spec: the Similarity Engine's `cosine_similarity`
is described in the spec (guarded dot-product over vector norms, 0.0 on a
zero norm, tolerant of dimension mismatch) but its code is not under
`src/`.  Vectors carry rational coordinates (floats are rationals); the
dot product pairs coordinates up to the shorter length, so a dimension
mismatch truncates instead of raising. -/
def listDot : List ℚ → List ℚ → ℚ
  | x :: xs, y :: ys => x * y + listDot xs ys
  | _, _ => 0

theorem listDot_self_nonneg (a : List ℚ) : 0 ≤ listDot a a := by
  induction a with
  | nil => simp [listDot]
  | cons x xs ih =>
    simp only [listDot]
    have hx : 0 ≤ x * x := mul_self_nonneg x
    linarith

/-- Modelled from the spec: `cosine_similarity(a, b) -> float in [-1, 1]`,
returning 0.0 when either vector has zero norm, else the dot product over
the product of the Euclidean norms. -/
noncomputable def cosine_similarity (a b : List ℚ) : ℝ :=
  if listDot a a = 0 ∨ listDot b b = 0 then 0
  else ((listDot a b : ℚ) : ℝ) /
    (Real.sqrt ((listDot a a : ℚ) : ℝ) * Real.sqrt ((listDot b b : ℚ) : ℝ))

theorem two_mul_le_sum_sq (x y A B D : ℚ) (hA : 0 ≤ A) (hB : 0 ≤ B)
    (hD : D ^ 2 ≤ A * B) : 2 * (x * y * D) ≤ x ^ 2 * B + y ^ 2 * A := by
  by_contra hcon
  push_neg at hcon
  have hSnn : 0 ≤ x ^ 2 * B + y ^ 2 * A := by positivity
  have hsq : (2 * (x * y * D)) ^ 2 ≤ (x ^ 2 * B + y ^ 2 * A) ^ 2 := by
    have h2 : 4 * (x ^ 2 * y ^ 2) * D ^ 2 ≤ 4 * (x ^ 2 * y ^ 2) * (A * B) := by
      apply mul_le_mul_of_nonneg_left hD
      positivity
    nlinarith [sq_nonneg (x ^ 2 * B - y ^ 2 * A)]
  have hlt : (x ^ 2 * B + y ^ 2 * A) ^ 2 < (2 * (x * y * D)) ^ 2 :=
    pow_lt_pow_left hcon hSnn two_ne_zero
  linarith

theorem listDot_sq_le (a b : List ℚ) :
    (listDot a b) ^ 2 ≤ listDot a a * listDot b b := by
  induction a generalizing b with
  | nil =>
    simp [listDot]
  | cons x xs ih =>
    cases b with
    | nil =>
      simp [listDot]
    | cons y ys =>
      simp only [listDot]
      have hA := listDot_self_nonneg xs
      have hB := listDot_self_nonneg ys
      have hkey := two_mul_le_sum_sq x y (listDot xs xs) (listDot ys ys) (listDot xs ys)
        hA hB (ih ys)
      nlinarith [ih ys]

/-- C8: `cosine_similarity` always lies in `[-1, 1]` (for every pair of
vectors, equal dimension or not — the function is total and never
raises), returns exactly 0 when either vector has zero norm, and returns
exactly 1 on every positive-norm vector compared with itself. -/
theorem cosine_similarity_props (a b : List ℚ) :
    (-1 ≤ cosine_similarity a b ∧ cosine_similarity a b ≤ 1)
    ∧ (listDot a a = 0 ∨ listDot b b = 0 → cosine_similarity a b = 0)
    ∧ (listDot a a ≠ 0 → cosine_similarity a a = 1) := by
  refine ⟨?_, ?_, ?_⟩
  · by_cases h : listDot a a = 0 ∨ listDot b b = 0
    · rw [cosine_similarity, if_pos h]
      norm_num
    · rw [cosine_similarity, if_neg h]
      push_neg at h
      obtain ⟨hA0, hB0⟩ := h
      have hA : 0 < listDot a a := lt_of_le_of_ne (listDot_self_nonneg a) (Ne.symm hA0)
      have hB : 0 < listDot b b := lt_of_le_of_ne (listDot_self_nonneg b) (Ne.symm hB0)
      have hAr : (0 : ℝ) < ((listDot a a : ℚ) : ℝ) := by exact_mod_cast hA
      have hBr : (0 : ℝ) < ((listDot b b : ℚ) : ℝ) := by exact_mod_cast hB
      have hden : (0 : ℝ) < Real.sqrt ((listDot a a : ℚ) : ℝ) *
          Real.sqrt ((listDot b b : ℚ) : ℝ) :=
        mul_pos (Real.sqrt_pos.mpr hAr) (Real.sqrt_pos.mpr hBr)
      have hcs : (((listDot a b : ℚ) : ℝ)) ^ 2 ≤
          ((listDot a a : ℚ) : ℝ) * ((listDot b b : ℚ) : ℝ) := by
        exact_mod_cast listDot_sq_le a b
      have habs : |((listDot a b : ℚ) : ℝ)| ≤
          Real.sqrt ((listDot a a : ℚ) : ℝ) * Real.sqrt ((listDot b b : ℚ) : ℝ) := by
        rw [← Real.sqrt_mul (le_of_lt hAr)]
        rw [← Real.sqrt_sq_eq_abs]
        exact Real.sqrt_le_sqrt hcs
      rw [abs_le] at habs
      constructor
      · rw [le_div_iff hden]
        linarith [habs.1]
      · rw [div_le_one hden]
        exact habs.2
  · intro h
    rw [cosine_similarity, if_pos h]
  · intro h
    have hnot : ¬(listDot a a = 0 ∨ listDot a a = 0) := by tauto
    rw [cosine_similarity, if_neg hnot]
    have hA : 0 < listDot a a := lt_of_le_of_ne (listDot_self_nonneg a) (Ne.symm h)
    have hAr : (0 : ℝ) < ((listDot a a : ℚ) : ℝ) := by exact_mod_cast hA
    rw [Real.mul_self_sqrt (le_of_lt hAr)]
    exact div_self (ne_of_gt hAr)

/-- Witness for C8: unit vector against an orthogonal-degenerate zero
vector, and against itself. -/
theorem cosine_similarity_props_witness :
    (-1 ≤ cosine_similarity [1] [0] ∧ cosine_similarity [1] [0] ≤ 1)
    ∧ cosine_similarity [1] [0] = 0
    ∧ cosine_similarity [1] [1] = 1 :=
  ⟨(cosine_similarity_props [1] [0]).1,
    (cosine_similarity_props [1] [0]).2.1 (Or.inr (by norm_num [listDot])),
    (cosine_similarity_props [1] [1]).2.2 (by norm_num [listDot])⟩

/-- A mutable candidate dict in the heap model used for the frame
property of `Reranker.rerank`: `base` stands for all original fields and
the two keys the reranker writes are explicit. -/
structure MDoc where
  base : ℕ
  rerank_score : Option ℚ
  rank : Option ℕ
  deriving DecidableEq, Repr, Inhabited

/-- The copy loop of `Reranker.rerank` over a heap of dicts:
`orig_doc = docs[i].copy(); orig_doc['rerank_score'] = float(score)`.
Each copy is a fresh allocation (appended cell); the returned refs point
at the copies. -/
def mkCopies (st : List MDoc) : List (ℕ × ℚ) → List MDoc × List ℕ
  | [] => (st, [])
  | (r, s) :: rest =>
    let orig := st.getD r default
    let st' := st ++ [{ orig with rerank_score := some s }]
    let out := mkCopies st' rest
    (out.1, st.length :: out.2)

/-- The rank loop `for i, doc in enumerate(result_docs, 1):
doc['rank'] = i`, writing through the refs in sorted order. -/
def writeRanks (st : List MDoc) : List ℕ → ℕ → List MDoc
  | [], _ => st
  | r :: rest, n => writeRanks (st.set r { st.getD r default with rank := some n }) rest (n + 1)

/-- `Reranker.rerank` on the heap: copy-and-score each candidate, sort
the copy refs by descending score (stable), write ranks into the copies,
return the new heap and the top-`limit` refs.  The input refs are only
ever read. -/
def rerankStore (st : List MDoc) (docRefs : List ℕ) (scores : List ℚ) (limit : ℕ) :
    List MDoc × List ℕ :=
  let out := mkCopies st (docRefs.zip scores)
  let sorted := sortDesc (fun r => (out.1.getD r default).rerank_score.getD 0) out.2
  (writeRanks out.1 sorted 1, sorted.take limit)

theorem getD_set_ne (l : List MDoc) (i j : ℕ) (a : MDoc) (h : i ≠ j) :
    (l.set i a).getD j default = l.getD j default := by
  induction l generalizing i j with
  | nil => simp
  | cons x xs ih =>
    cases i with
    | zero =>
      cases j with
      | zero => exact absurd rfl h
      | succ j' => simp [List.set]
    | succ i' =>
      cases j with
      | zero => simp [List.set]
      | succ j' =>
        simp only [List.set, List.getD_cons_succ]
        exact ih i' j' fun hc => h (by rw [hc])

theorem mkCopies_fst_append (st : List MDoc) (l : List (ℕ × ℚ)) :
    ∃ ext, (mkCopies st l).1 = st ++ ext := by
  induction l generalizing st with
  | nil => exact ⟨[], by simp [mkCopies]⟩
  | cons p rest ih =>
    obtain ⟨r, s⟩ := p
    obtain ⟨ext, hext⟩ := ih (st ++ [{ st.getD r default with rerank_score := some s }])
    exact ⟨{ st.getD r default with rerank_score := some s } :: ext, by
      simp only [mkCopies, hext, List.append_assoc, List.singleton_append]⟩

theorem mkCopies_refs_ge (st : List MDoc) (l : List (ℕ × ℚ)) :
    ∀ x ∈ (mkCopies st l).2, st.length ≤ x := by
  induction l generalizing st with
  | nil => simp [mkCopies]
  | cons p rest ih =>
    obtain ⟨r, s⟩ := p
    intro x hx
    simp only [mkCopies, List.mem_cons] at hx
    rcases hx with rfl | hx'
    · exact le_refl _
    · have h := ih (st ++ [{ st.getD r default with rerank_score := some s }]) x hx'
      simp only [List.length_append, List.length_singleton] at h
      omega

theorem writeRanks_preserves (st : List MDoc) (refs : List ℕ) (n : ℕ) (r : ℕ)
    (h : ∀ x ∈ refs, x ≠ r) :
    (writeRanks st refs n).getD r default = st.getD r default := by
  induction refs generalizing st n with
  | nil => rfl
  | cons x rest ih =>
    simp only [writeRanks]
    rw [ih _ (n + 1) fun y hy => h y (List.mem_cons_of_mem x hy)]
    exact getD_set_ne st x r _ (h x (List.mem_cons_self x rest))

/-- C10: `Reranker.rerank` never mutates its input — every input
candidate dict (each heap cell the input refs point at) is unchanged
after the call; `rerank_score` and `rank` are written only into the
per-candidate copies. -/
theorem rerank_no_input_mutation (st : List MDoc) (docRefs : List ℕ) (scores : List ℚ)
    (limit : ℕ) (hvalid : ∀ r ∈ docRefs, r < st.length) :
    ∀ r ∈ docRefs, (rerankStore st docRefs scores limit).1.getD r default =
      st.getD r default := by
  intro r hr
  have hrlt : r < st.length := hvalid r hr
  obtain ⟨ext, hext⟩ := mkCopies_fst_append st (docRefs.zip scores)
  have hge := mkCopies_refs_ge st (docRefs.zip scores)
  show (writeRanks (mkCopies st (docRefs.zip scores)).1
      (sortDesc _ (mkCopies st (docRefs.zip scores)).2) 1).getD r default = _
  rw [writeRanks_preserves]
  · rw [hext]
    exact List.getD_append _ _ _ _ hrlt
  · intro x hx
    have hx' := (sortDesc_perm _ _).mem_iff.mp hx
    have := hge x hx'
    omega

/-- Witness for C10 at a one-cell heap. -/
theorem rerank_no_input_mutation_witness :
    (∀ r ∈ [0], r < ([⟨5, none, none⟩] : List MDoc).length) ∧
    ∀ r ∈ [0], (rerankStore [⟨5, none, none⟩] [0] [1] 18).1.getD r default =
      ([⟨5, none, none⟩] : List MDoc).getD r default :=
  ⟨by decide, rerank_no_input_mutation [⟨5, none, none⟩] [0] [1] 18 (by decide)⟩

end Tanalyst
